import Mathlib

/-!
Shallow embedding of the investor-fund projection, ledger-aggregation and
storage logic of the Personal-Fin finance tracker.

Conventions of the embedding:
* Calendar dates are day-granular triples `⟨year, month, day⟩`; the JS `Date`
  objects compared in the source all sit at (local) midnight or end-of-day of
  a calendar day, so date comparison is embedded as lexicographic comparison
  of the triples.
* `new Date(y, m0, d)` with a 0-based month index `m0 ≥ 0` and a day
  `1 ≤ d ≤ 31` (the only arguments the source produces, since `d` is parsed
  from a `YYYY-MM-DD` string) normalises by rolling an overflowing day into
  the following month; `jsMkDate` implements exactly that normalisation.
* Monetary values are embedded as rationals.
* JS strings are Lean `String`s; the case-insensitive keys built with
  `toLowerCase()` are embedded at the character-list level (`lower`).
* The unbounded `while` loops over projected dates take an explicit `fuel`
  argument; theorems about them hold for every fuel.
-/

structure Date where
  y : Int
  m : Int
  d : Int
deriving DecidableEq, Repr

/-- Gregorian leap-year test, as the JS `Date` implementation uses. -/
def isLeap (y : Int) : Bool :=
  y % 4 == 0 && (!(y % 100 == 0) || y % 400 == 0)

/-- Number of days of month `m` (1-based) of year `y`. -/
def daysInMonth (y m : Int) : Int :=
  if m = 2 then (if isLeap y then 29 else 28)
  else if m = 4 ∨ m = 6 ∨ m = 9 ∨ m = 11 then 30 else 31

/-- Day-granular `≤` on dates (lexicographic on year, month, day). -/
def dle (a b : Date) : Prop :=
  a.y < b.y ∨ (a.y = b.y ∧ (a.m < b.m ∨ (a.m = b.m ∧ a.d ≤ b.d)))

instance (a b : Date) : Decidable (dle a b) := by
  unfold dle; infer_instance

/-- Day-granular `<` on dates (lexicographic on year, month, day). -/
def dlt (a b : Date) : Prop :=
  a.y < b.y ∨ (a.y = b.y ∧ (a.m < b.m ∨ (a.m = b.m ∧ a.d < b.d)))

instance (a b : Date) : Decidable (dlt a b) := by
  unfold dlt; infer_instance

/-- Embedding of the JS constructor `new Date(y, m0, d)` at day granularity:
`m0` is a 0-based month count that is folded into the year, and a day beyond
the end of the resulting month rolls over into the following month (faithful
for `1 ≤ d ≤ 31`, which covers every call site: `d` always comes from a parsed
`YYYY-MM-DD` string). -/
def jsMkDate (y m0 d : Int) : Date :=
  let y1 := y + m0 / 12
  let m1 := m0 % 12 + 1
  let dim := daysInMonth y1 m1
  if d ≤ dim then ⟨y1, m1, d⟩
  else if m1 = 12 then ⟨y1 + 1, 1, d - dim⟩ else ⟨y1, m1 + 1, d - dim⟩

/-- Embedding of `dt.setDate(0)`: the last day of the month preceding `dt`. -/
def setDateZero (dt : Date) : Date :=
  if dt.m = 1 then ⟨dt.y - 1, 12, 31⟩
  else ⟨dt.y, dt.m - 1, daysInMonth dt.y (dt.m - 1)⟩

/-- Successor day in the Gregorian calendar. -/
def nextDay (dt : Date) : Date :=
  if dt.d < daysInMonth dt.y dt.m then ⟨dt.y, dt.m, dt.d + 1⟩
  else if dt.m < 12 then ⟨dt.y, dt.m + 1, 1⟩ else ⟨dt.y + 1, 1, 1⟩

/-- Embedding of `date.setDate(date.getDate() + n)` for `n ≥ 0`: advance a
valid date by `n` calendar days. -/
def jsAddDays (dt : Date) (n : Nat) : Date :=
  Nat.rec dt (fun _ acc => nextDay acc) n

/-- Embedding of `date.setFullYear(date.getFullYear() + n)`: the only
normalisation a valid date can need is Feb 29 rolling to Mar 1. -/
def jsAddYears (dt : Date) (n : Int) : Date :=
  let y := dt.y + n
  let dim := daysInMonth y dt.m
  if dt.d ≤ dim then ⟨y, dt.m, dt.d⟩ else ⟨y, dt.m + 1, dt.d - dim⟩

/-- The k-th projected periodic date, computed fresh from the start date as in
`InvestorDashboard.generateInterestEntries` and the payment-calendar loop:
`new Date(sY, sM - 1 + monthsToAdd * k, sD)` followed by the overshoot fix
`if (nextDate.getDate() !== sD) nextDate.setDate(0)`. -/
def periodicDate (start : Date) (mo : Nat) (k : Nat) : Date :=
  let nd := jsMkDate start.y (start.m - 1 + (mo : Int) * (k : Int)) start.d
  if nd.d = start.d then nd else setDateZero nd

/-- Embedding of the form memo `maturityDate` (TransactionForm): the target
date is built with `new Date(y, m - 1 + monthsToAdd, d)` and, unlike the
periodic projection, has no overshoot fix. -/
def maturityDateCalc (start : Date) (months : Nat) : Date :=
  jsMkDate start.y (start.m - 1 + (months : Int)) start.d

/-- Target month of adding `n` calendar months to `start` (year and 1-based
month of the result, before any day-of-month normalisation). -/
def targetMonth (start : Date) (n : Int) : Int × Int :=
  (start.y + (start.m - 1 + n) / 12, (start.m - 1 + n) % 12 + 1)

/-- Modelled from the spec: "add N periods using calendar-month arithmetic; if
the resulting day-of-month overflows, clamp to the last day of that month".
Reference definition used to compare the code's date arithmetic against the
specified clamping behaviour. -/
def addMonthsClamped (start : Date) (n : Int) : Date :=
  let t := targetMonth start n
  ⟨t.1, t.2, min start.d (daysInMonth t.1 t.2)⟩

/-- Validity of a calendar date as produced by parsing a real `YYYY-MM-DD`
date string. -/
def ValidDate (dt : Date) : Prop :=
  1 ≤ dt.m ∧ dt.m ≤ 12 ∧ 1 ≤ dt.d ∧ dt.d ≤ daysInMonth dt.y dt.m

instance (dt : Date) : Decidable (ValidDate dt) := by
  unfold ValidDate; infer_instance

/-! ## Data model -/

inductive TxType
  | INCOME
  | EXPENSE
deriving DecidableEq, Repr

inductive ReturnPeriod
  | Monthly
  | Quarterly
  | HalfYearly
  | Yearly
  | Maturity
deriving DecidableEq, Repr

/-- `monthsToAdd` as computed by the if-chains of the source (defaulting to 0,
which only the `Maturity` period reaches). -/
def monthsToAdd : ReturnPeriod → Nat
  | .Monthly => 1
  | .Quarterly => 3
  | .HalfYearly => 6
  | .Yearly => 12
  | .Maturity => 0

structure InvestorDetails where
  investorName : String
  roi : ℚ
  returnPeriod : ReturnPeriod
  durationMonths : Nat
  maturityDate : Date
  purpose : Option String
  periodicInterestAmount : Option ℚ
deriving DecidableEq, Repr

structure Tx where
  id : String
  userId : String
  amount : ℚ
  type : TxType
  category : String
  paymentMode : Option String
  date : Date
  note : Option String
  timestamp : Int
  investorDetails : Option InvestorDetails
deriving DecidableEq, Repr

structure UserRec where
  id : String
  name : String
  createdAt : Int
deriving DecidableEq, Repr

structure GroupedCategory where
  group : String
  items : List String
deriving DecidableEq, Repr

/-! ## Interest projection (InvestorDashboard.generateInterestEntries) -/

/-- A virtual interest-due entry: `idx` is the running `count` of the source
loop (0 for the single maturity-period entry, which carries no count). -/
structure InterestEntry where
  idx : Nat
  date : Date
  amount : ℚ
deriving DecidableEq, Repr

/-- Lines 39-47 of the dashboard: `periodicInterestAmount || 0`, recomputed
from principal, rate and period when that is falsy and the rate is truthy. -/
def effInterestAmount (principal : ℚ) (dtl : InvestorDetails) : ℚ :=
  let stored := dtl.periodicInterestAmount.getD 0
  if stored = 0 ∧ dtl.roi ≠ 0 then
    let annual := principal * dtl.roi / 100
    match dtl.returnPeriod with
    | .Monthly => annual / 12
    | .Quarterly => annual / 4
    | .HalfYearly => annual / 2
    | .Yearly => annual
    | .Maturity => annual * ((dtl.durationMonths : ℚ) / 12)
  else stored

/-- The periodic `while (nextDate <= today)` loop of
`generateInterestEntries`: push the entry for the current multiplier, advance,
and break once the freshly computed next date passes the maturity date. -/
def genPeriodicAux (start : Date) (mo : Nat) (mat today : Date) (amt : ℚ) :
    Nat → Nat → List InterestEntry
  | 0, _ => []
  | fuel + 1, k =>
    let nd := periodicDate start mo k
    if dle nd today then
      ⟨k, nd, amt⟩ ::
        (let nd2 := periodicDate start mo (k + 1)
         if dlt mat nd2 then []
         else genPeriodicAux start mo mat today amt fuel (k + 1))
    else []

/-- Embedding of `generateInterestEntries` (dashboard lines 29-123). `today`
is the reference date (the source sets it to the end of the current day, so a
projected date counts as due when it is `≤ today` at day granularity). -/
def generateInterestEntries (fuel : Nat) (t : Tx) (today : Date) :
    List InterestEntry :=
  match t.investorDetails with
  | none => []
  | some dtl =>
    if dtl.roi = 0 then []
    else
      let amt := effInterestAmount t.amount dtl
      if amt ≤ 0 then []
      else if dtl.returnPeriod = ReturnPeriod.Maturity then
        (if dle dtl.maturityDate today then [⟨0, dtl.maturityDate, amt⟩]
         else [])
      else
        let mo := monthsToAdd dtl.returnPeriod
        if mo = 0 then []
        else genPeriodicAux t.date mo dtl.maturityDate today amt fuel 1

/-! ## Payment calendar (UpcomingMaturities.allEvents) -/

inductive UEventType
  | PRINCIPAL
  | INTEREST
deriving DecidableEq, Repr

structure UEvent where
  etype : UEventType
  date : Date
  amount : ℚ
deriving DecidableEq, Repr

/-- The `while (safetyCounter < 50)` loop of `allEvents` for one transaction:
stop past the maturity date, emit dates inside `[today, endD]`, skip past
dates, and give up after 50 iterations. -/
def allEventsInterestAux (start : Date) (mo : Nat) (mat today endD : Date) :
    Nat → Nat → List Date
  | 0, _ => []
  | fuel + 1, k =>
    let nd := periodicDate start mo k
    if dlt mat nd then []
    else if dle today nd then
      (if dlt endD nd then []
       else nd :: allEventsInterestAux start mo mat today endD fuel (k + 1))
    else allEventsInterestAux start mo mat today endD fuel (k + 1)

/-- Interest dates the payment calendar emits for one transaction (the source
caps the search at 50 loop iterations). -/
def allEventsInterest (start : Date) (mo : Nat) (mat today endD : Date) :
    List Date :=
  allEventsInterestAux start mo mat today endD 50 1

/-- The periodic-interest section of `allEvents` for one transaction: runs
only when a (truthy) stored periodic amount and a non-Maturity period are
present. -/
def eventsForInterest (t : Tx) (dtl : InvestorDetails) (today endD : Date) :
    List UEvent :=
  match dtl.periodicInterestAmount with
  | none => []
  | some pia =>
    if pia = 0 then []
    else if dtl.returnPeriod = ReturnPeriod.Maturity then []
    else
      let mo := monthsToAdd dtl.returnPeriod
      if mo = 0 then []
      else (allEventsInterest t.date mo dtl.maturityDate today endD).map
             (fun dte => ⟨.INTEREST, dte, pia⟩)

/-- Events the payment calendar (`allEvents`) generates for one transaction:
a principal-maturity event when the maturity date lies inside the window
`[today, endD]`, plus the capped periodic interest dates. -/
def eventsFor (t : Tx) (today endD : Date) : List UEvent :=
  match t.investorDetails with
  | none => []
  | some dtl =>
    (if dle today dtl.maturityDate ∧ dle dtl.maturityDate endD
     then [⟨.PRINCIPAL, dtl.maturityDate, t.amount⟩]
     else []) ++ eventsForInterest t dtl today endD

/-- The full `allEvents` list over a transaction list. -/
def allEvents (txs : List Tx) (today endD : Date) : List UEvent :=
  txs.flatMap (fun t => eventsFor t today endD)

/-! ## Dashboard upcoming-payments widget -/

/-- The fast-forward loop of `Dashboard.upcomingPayments`: starting from the
start date itself, recompute the next periodic date until it is no longer in
the past. -/
def fastForwardAux (start : Date) (mo : Nat) (today : Date) :
    Date → Nat → Nat → Date
  | nd, _, 0 => nd
  | nd, k, fuel + 1 =>
    if dlt nd today then
      fastForwardAux start mo today (periodicDate start mo k) (k + 1) fuel
    else nd

/-- The periodic-interest section of `Dashboard.upcomingPayments` for one
transaction: the first not-yet-past interest date, emitted when it is within
the next 30 days and not after the maturity date. -/
def upcomingForInterest (fuel : Nat) (t : Tx) (dtl : InvestorDetails)
    (today : Date) : List UEvent :=
  match dtl.periodicInterestAmount with
  | none => []
  | some pia =>
    if pia = 0 then []
    else if dtl.returnPeriod = ReturnPeriod.Maturity then []
    else
      let mo := monthsToAdd dtl.returnPeriod
      if mo = 0 then []
      else
        let nd := fastForwardAux t.date mo today t.date 1 fuel
        if dle nd (jsAddDays today 30) ∧ dle nd dtl.maturityDate
        then [⟨.INTEREST, nd, pia⟩]
        else []

/-- Embedding of `Dashboard.upcomingPayments` restricted to one (income)
transaction: a maturity event when the maturity date falls within the next
30 days, plus the first upcoming interest date. -/
def upcomingFor (fuel : Nat) (t : Tx) (today : Date) : List UEvent :=
  match t.investorDetails with
  | none => []
  | some dtl =>
    if t.type = TxType.INCOME then
      (if dle today dtl.maturityDate ∧
          dle dtl.maturityDate (jsAddDays today 30)
       then [⟨.PRINCIPAL, dtl.maturityDate, t.amount⟩]
       else []) ++ upcomingForInterest fuel t dtl today
    else []

/-! ## Transaction-form calculations -/

/-- Embedding of the form memo `interestAmount` (TransactionForm): zero for
the Maturity period, otherwise the annual interest divided by the number of
periods per year. -/
def interestAmountForm (principal rate : ℚ) (p : ReturnPeriod) : ℚ :=
  if p = ReturnPeriod.Maturity then 0
  else
    let annualInterest := principal * rate / 100
    match p with
    | .Monthly => annualInterest / 12
    | .Quarterly => annualInterest / 4
    | .HalfYearly => annualInterest / 2
    | .Yearly => annualInterest
    | .Maturity => 0

/-- Modelled from the spec: "periodic amount = (principal × rate / 100) /
periods-per-year (12/4/2/1 for Monthly/Quarterly/Half-Yearly/Yearly)".
Reference divisor used to compare both code paths against. -/
def periodsPerYear : ReturnPeriod → ℚ
  | .Monthly => 12
  | .Quarterly => 4
  | .HalfYearly => 2
  | .Yearly => 1
  | .Maturity => 1

/-! ## Investor ledger aggregation (InvestorDashboard.investorAccounts) -/

/-- Case-insensitive key of a JS string, at the character level. -/
def lower (s : String) : List Char :=
  s.data.map Char.toLower

/-- The grouping key of a transaction: income entries key by the (truthy)
investor name of their details, expense entries by their (truthy) category;
anything else is skipped. -/
def keyOf (t : Tx) : Option (List Char) :=
  match t.type, t.investorDetails with
  | .INCOME, some dtl =>
    if dtl.investorName = "" then none else some (lower dtl.investorName)
  | .INCOME, none => none
  | .EXPENSE, _ =>
    if t.category = "" then none else some (lower t.category)

/-- The display-name candidate a transaction carries: the investor name for a
keyed income entry, the category otherwise. -/
def rawName (t : Tx) : String :=
  match t.type, t.investorDetails with
  | .INCOME, some dtl => dtl.investorName
  | _, _ => t.category

/-- One investor account of the dashboard. The passbook array of real and
virtual transactions the source also accumulates is omitted: no specified
property refers to it. -/
structure Account where
  name : String
  totalPrincipal : ℚ
  totalInterestAccrued : ℚ
  totalPaid : ℚ
deriving DecidableEq, Repr

/-- First account stored under key `k` (JS object-property lookup). -/
def findAcc (k : List Char) : List (List Char × Account) → Option Account
  | [] => none
  | (k2, a) :: rest => if k2 = k then some a else findAcc k rest

/-- Update the account stored under key `k` in place. -/
def updAcc (k : List Char) (f : Account → Account) :
    List (List Char × Account) → List (List Char × Account)
  | [] => []
  | (k2, a) :: rest =>
    if k2 = k then (k2, f a) :: rest else (k2, a) :: updAcc k f rest

/-- One iteration of the `transactions.forEach` body of `investorAccounts`:
create the account on first sight (income entries overwrite the stored
casing), then add principal and generated interest for keyed income entries
and the paid amount for keyed expense entries. -/
def accStep (fuel : Nat) (today : Date) (s : List (List Char × Account))
    (t : Tx) : List (List Char × Account) :=
  match keyOf t with
  | none => s
  | some k =>
    let s1 :=
      match findAcc k s with
      | none => s ++ [(k, ⟨rawName t, 0, 0, 0⟩)]
      | some _ =>
        if t.type = TxType.INCOME then
          updAcc k (fun a => { a with name := rawName t }) s
        else s
    match t.type, t.investorDetails with
    | .INCOME, some _ =>
      let intSum := ((generateInterestEntries fuel t today).map
        (fun e => e.amount)).sum
      updAcc k (fun a =>
        { a with
          totalPrincipal := a.totalPrincipal + t.amount
          totalInterestAccrued := a.totalInterestAccrued + intSum }) s1
    | .EXPENSE, _ =>
      updAcc k (fun a => { a with totalPaid := a.totalPaid + t.amount }) s1
    | _, _ => s1

/-- The account map after the first pass of `investorAccounts`, as an
insertion-ordered association list. -/
def buildAccounts (fuel : Nat) (today : Date) (txs : List Tx) :
    List (List Char × Account) :=
  txs.foldl (accStep fuel today) []

/-- Embedding of the `investorAccounts` memo: `Object.values` of the account
map, filtered to accounts with positive principal or payments. -/
def investorAccounts (fuel : Nat) (today : Date) (txs : List Tx) :
    List Account :=
  ((buildAccounts fuel today txs).map Prod.snd).filter
    (fun a => decide (0 < a.totalPrincipal ∨ 0 < a.totalPaid))

/-- Outstanding balance of an account
(`(totalPrincipal + totalInterestAccrued) - totalPaid`, dashboard line 198). -/
def netBalance (a : Account) : ℚ :=
  a.totalPrincipal + a.totalInterestAccrued - a.totalPaid

/-! ## Storage service (storageService.ts) -/

/-- The local storage, one field per fixed storage key; `none` models an
absent key. -/
structure Store where
  users : Option (List UserRec)
  transactions : Option (List Tx)
  categories : Option (List GroupedCategory)
deriving DecidableEq, Repr

/-- Embedding of the `DEFAULT_CATEGORIES` constant. -/
def DEFAULT_CATEGORIES : List GroupedCategory :=
  [⟨"Real Estate Projects",
    ["Galaxy", "Tatva Developer", "Kalpchandra Serenity", "Bougainvilla",
     "Varaj Vihar"]⟩,
   ⟨"Investor Payments",
    ["Investor Funds", "Interest Payment", "Principal Return"]⟩,
   ⟨"Investments",
    ["SIP (Regular)", "SIP (Gold)", "Mutual Funds", "Stocks"]⟩,
   ⟨"Personal",
    ["Salary", "Business Profit", "Rental Income", "Interest", "Mediclaim",
     "Term Plan", "LIC", "Home Loan", "Personal Loan", "Friends/Family Loan",
     "Utilities", "Property Tax", "Vehicle", "Travel", "School Fees",
     "Family Welfare", "Groceries", "Entertainment", "Other"]⟩]

/-- Embedding of `getUsers`: the empty list when the key is absent. -/
def getUsers (s : Store) : List UserRec :=
  s.users.getD []

/-- Stable insertion step for the descending-timestamp sort of
`getTransactions`. -/
def insertByTs (t : Tx) : List Tx → List Tx
  | [] => [t]
  | x :: rest =>
    if x.timestamp < t.timestamp then t :: x :: rest
    else x :: insertByTs t rest

/-- Stable sort by descending timestamp
(`.sort((a, b) => b.timestamp - a.timestamp)`). -/
def sortByTsDesc (l : List Tx) : List Tx :=
  l.foldr insertByTs []

/-- Embedding of `getTransactions`: parse (or default to empty), filter by
user id, sort by descending timestamp. -/
def getTransactions (userId : String) (s : Store) : List Tx :=
  sortByTsDesc ((s.transactions.getD []).filter (fun t => t.userId == userId))

/-- First group with the given name (`categories.find`). -/
def findGroup (n : String) : List GroupedCategory → Option GroupedCategory
  | [] => none
  | g :: rest => if g.group = n then some g else findGroup n rest

/-- Update the items of the first group with the given name in place. -/
def updateGroup (n : String) (f : List String → List String) :
    List GroupedCategory → List GroupedCategory
  | [] => []
  | g :: rest =>
    if g.group = n then { g with items := f g.items } :: rest
    else g :: updateGroup n f rest

/-- Insert a new group right before the first group with the given name, or
append it when no such group exists (`categories.splice(pIndex, 0, g)` /
`categories.push(g)`). -/
def insertBeforeGroup (n : String) (newG : GroupedCategory) :
    List GroupedCategory → List GroupedCategory
  | [] => [newG]
  | g :: rest =>
    if g.group = n then newG :: g :: rest
    else g :: insertBeforeGroup n newG rest

/-- Remove the first occurrence of an item
(`items.splice(items.indexOf(x), 1)`). -/
def eraseFirstItem (x : String) : List String → List String
  | [] => []
  | a :: rest => if a = x then rest else a :: eraseFirstItem x rest

/-- Migration 1 of `getCategories`: move "Investor Funds" from the "Personal"
group to the front of the "Investor Payments" group. -/
def migrate1 (cats : List GroupedCategory) : List GroupedCategory × Bool :=
  match findGroup "Personal" cats, findGroup "Investor Payments" cats with
  | some p, some v =>
    if "Investor Funds" ∈ p.items then
      let c1 := updateGroup "Personal" (eraseFirstItem "Investor Funds") cats
      let c2 :=
        if "Investor Funds" ∈ v.items then c1
        else updateGroup "Investor Payments"
          (fun its => "Investor Funds" :: its) c1
      (c2, true)
    else (cats, false)
  | _, _ => (cats, false)

/-- Migration 2 of `getCategories`: create the "Investments" group (before
"Personal" when that exists) if it is missing. -/
def migrate2 (cb : List GroupedCategory × Bool) : List GroupedCategory × Bool :=
  match findGroup "Investments" cb.1 with
  | some _ => cb
  | none =>
    (insertBeforeGroup "Personal" ⟨"Investments", ["Mutual Funds", "Stocks"]⟩
      cb.1, true)

/-- One step of migration 3 of `getCategories`: move `item` from the
"Personal" group to the front of the "Investments" group (the source only
runs this when the original array had a "Personal" group, which is exactly
when one exists now: no migration step removes or adds a group of that
name). -/
def moveItemStep (item : String) (cb : List GroupedCategory × Bool) :
    List GroupedCategory × Bool :=
  match findGroup "Personal" cb.1 with
  | none => cb
  | some p =>
    if item ∈ p.items then
      let c1 := updateGroup "Personal" (eraseFirstItem item) cb.1
      let c2 :=
        match findGroup "Investments" c1 with
        | none => c1
        | some inv =>
          if item ∈ inv.items then c1
          else updateGroup "Investments" (fun its => item :: its) c1
      (c2, true)
    else cb

/-- The in-place migrations `getCategories` performs on stored categories,
plus the `changed` flag that decides whether they are persisted. -/
def migrate (cats : List GroupedCategory) : List GroupedCategory × Bool :=
  moveItemStep "SIP (Gold)"
    (moveItemStep "SIP (Regular)" (migrate2 (migrate1 cats)))

/-- Embedding of `getCategories`: defaults are installed and persisted when
the key is absent; otherwise the stored value is migrated and persisted
exactly when a migration changed it. Returns the categories together with
the store as left behind. -/
def getCategories (s : Store) : List GroupedCategory × Store :=
  match s.categories with
  | some cats =>
    let cb := migrate cats
    (cb.1, if cb.2 then { s with categories := some cb.1 } else s)
  | none =>
    (DEFAULT_CATEGORIES, { s with categories := some DEFAULT_CATEGORIES })

/-- Embedding of `saveCategories`. -/
def saveCategories (s : Store) (cats : List GroupedCategory) : Store :=
  { s with categories := some cats }

/-- Embedding of `ensureInvestorCategory`: read (and possibly migrate) the
categories, create the "Investor Payments" group when missing, and push the
investor name unless a case-insensitively equal item already exists. -/
def ensureInvestorCategory (s : Store) (investorName : String) : Store :=
  let cs := getCategories s
  let cats1 :=
    match findGroup "Investor Payments" cs.1 with
    | some _ => cs.1
    | none => cs.1 ++ [⟨"Investor Payments", []⟩]
  match findGroup "Investor Payments" cats1 with
  | none => cs.2
  | some g =>
    if g.items.any (fun item => decide (lower item = lower investorName)) then
      cs.2
    else
      saveCategories cs.2
        (updateGroup "Investor Payments" (fun its => its ++ [investorName])
          cats1)

/-! ## Specification-side aggregation (for the ledger claims) -/

/-- Transactions of the processed list carrying grouping key `k`. -/
def keyedFor (k : List Char) (txs : List Tx) : List Tx :=
  txs.filter (fun t => decide (keyOf t = some k))

/-- Income transactions carrying grouping key `k`. -/
def incomesFor (k : List Char) (txs : List Tx) : List Tx :=
  (keyedFor k txs).filter (fun t => decide (t.type = TxType.INCOME))

/-- Expense transactions carrying grouping key `k`. -/
def expensesFor (k : List Char) (txs : List Tx) : List Tx :=
  (keyedFor k txs).filter (fun t => decide (t.type = TxType.EXPENSE))

/-- Summed principal of the income transactions of key `k`. -/
def principalOf (k : List Char) (txs : List Tx) : ℚ :=
  ((incomesFor k txs).map (fun t => t.amount)).sum

/-- Summed payments of the expense transactions of key `k`. -/
def paidOf (k : List Char) (txs : List Tx) : ℚ :=
  ((expensesFor k txs).map (fun t => t.amount)).sum

/-- Summed projected interest of the income transactions of key `k`. -/
def interestOf (fuel : Nat) (today : Date) (k : List Char) (txs : List Tx) :
    ℚ :=
  ((incomesFor k txs).map (fun t =>
    ((generateInterestEntries fuel t today).map (fun e => e.amount)).sum)).sum

/-- Display name of the account of key `k`: the casing of the most recent
income entry when one exists, otherwise the casing carried by the first
transaction that created the account. -/
def displayNameOf (k : List Char) (txs : List Tx) : String :=
  match (incomesFor k txs).getLast? with
  | some t => rawName t
  | none =>
    match (keyedFor k txs).head? with
    | some t => rawName t
    | none => ""

/-! ## Calendar lemmas -/

theorem daysInMonth_bounds (y m : Int) (h1 : 1 ≤ m) (h2 : m ≤ 12) :
    28 ≤ daysInMonth y m ∧ daysInMonth y m ≤ 31 := by
  unfold daysInMonth
  split_ifs <;> omega

theorem daysInMonth_twelve (y : Int) : daysInMonth y 12 = 31 := by
  norm_num [daysInMonth]

theorem dle_refl (a : Date) : dle a a := by
  unfold dle; omega

theorem dle_of_dlt {a b : Date} (h : dlt a b) : dle a b := by
  unfold dle; unfold dlt at h; omega

theorem dle_trans {a b c : Date} (h1 : dle a b) (h2 : dle b c) : dle a c := by
  unfold dle at h1 h2 ⊢; omega

theorem not_dlt_of_dle {a b : Date} (h : dle a b) : ¬ dlt b a := by
  unfold dle at h; unfold dlt; omega

theorem dle_of_not_dlt {a b : Date} (h : ¬ dlt a b) : dle b a := by
  unfold dlt at h; unfold dle; omega

theorem jsMkDate_no_overflow (y m0 d : Int)
    (h : d ≤ daysInMonth (y + m0 / 12) (m0 % 12 + 1)) :
    jsMkDate y m0 d = ⟨y + m0 / 12, m0 % 12 + 1, d⟩ := by
  simp only [jsMkDate]
  rw [if_pos h]

theorem jsMkDate_overflow (y m0 d : Int) (hd31 : d ≤ 31)
    (h : daysInMonth (y + m0 / 12) (m0 % 12 + 1) < d) :
    jsMkDate y m0 d =
      ⟨y + m0 / 12, m0 % 12 + 1 + 1,
       d - daysInMonth (y + m0 / 12) (m0 % 12 + 1)⟩ := by
  have h12 : ¬ (m0 % 12 + 1 = 12) := by
    intro heq
    rw [heq, daysInMonth_twelve] at h
    omega
  simp only [jsMkDate]
  rw [if_neg (not_le.mpr h), if_neg h12]

theorem setDateZero_succ (y m d : Int) (h1 : 1 ≤ m) (h2 : m ≤ 12) :
    setDateZero ⟨y, m + 1, d⟩ = ⟨y, m, daysInMonth y m⟩ := by
  simp only [setDateZero]
  rw [if_neg (by simp; omega)]
  have hm : m + 1 - 1 = m := by ring
  simp only [hm]

/-- Core date-arithmetic fact: on a valid start date the periodic projection
(`new Date(sY, sM - 1 + mo·k, sD)` with the `setDate(0)` overshoot fix)
computes exactly the clamped calendar-month addition the spec describes. -/
theorem periodicDate_eq_clamped (start : Date) (mo k : Nat)
    (hv : ValidDate start) :
    periodicDate start mo k =
      addMonthsClamped start ((mo : Int) * (k : Int)) := by
  obtain ⟨hm1, hm2, hd1, hd2⟩ := hv
  have hdimS := daysInMonth_bounds start.y start.m hm1 hm2
  have hd31 : start.d ≤ 31 := le_trans hd2 hdimS.2
  have hmul : (0 : Int) ≤ (mo : Int) * (k : Int) := by positivity
  simp only [periodicDate, addMonthsClamped, targetMonth]
  set m0 : Int := start.m - 1 + (mo : Int) * (k : Int) with hm0
  have hb1 : 1 ≤ m0 % 12 + 1 := by omega
  have hb2 : m0 % 12 + 1 ≤ 12 := by omega
  have hdim := daysInMonth_bounds (start.y + m0 / 12) (m0 % 12 + 1) hb1 hb2
  by_cases hle : start.d ≤ daysInMonth (start.y + m0 / 12) (m0 % 12 + 1)
  · rw [jsMkDate_no_overflow start.y m0 start.d hle]
    rw [if_pos rfl, min_eq_left hle]
  · push_neg at hle
    rw [jsMkDate_overflow start.y m0 start.d hd31 hle]
    rw [if_neg (by simp; omega)]
    rw [setDateZero_succ (start.y + m0 / 12) (m0 % 12 + 1)
      (start.d - daysInMonth (start.y + m0 / 12) (m0 % 12 + 1)) hb1 hb2]
    rw [min_eq_right (le_of_lt hle)]

theorem addMonthsClamped_parts (start : Date) (n : Int) (hv : ValidDate start) :
    12 * (addMonthsClamped start n).y + (addMonthsClamped start n).m
        = 12 * start.y + start.m + n
      ∧ 1 ≤ (addMonthsClamped start n).m
      ∧ (addMonthsClamped start n).m ≤ 12
      ∧ 1 ≤ (addMonthsClamped start n).d := by
  obtain ⟨hm1, hm2, hd1, hd2⟩ := hv
  have hdim := daysInMonth_bounds (start.y + (start.m - 1 + n) / 12)
    ((start.m - 1 + n) % 12 + 1) (by omega) (by omega)
  simp only [addMonthsClamped, targetMonth]
  refine ⟨by omega, by omega, by omega, by omega⟩

theorem dlt_of_monthIdx {a b : Date}
    (hma1 : 1 ≤ a.m) (hma2 : a.m ≤ 12) (hmb1 : 1 ≤ b.m) (hmb2 : b.m ≤ 12)
    (h : 12 * a.y + a.m < 12 * b.y + b.m) : dlt a b := by
  unfold dlt; omega

theorem periodicDate_strict_mono (start : Date) (mo j k : Nat)
    (hv : ValidDate start) (hmo : 1 ≤ mo) (hjk : j < k) :
    dlt (periodicDate start mo j) (periodicDate start mo k) := by
  rw [periodicDate_eq_clamped start mo j hv, periodicDate_eq_clamped start mo k hv]
  have ha := addMonthsClamped_parts start ((mo : Int) * (j : Int)) hv
  have hb := addMonthsClamped_parts start ((mo : Int) * (k : Int)) hv
  apply dlt_of_monthIdx ha.2.1 ha.2.2.1 hb.2.1 hb.2.2.1
  have hjk2 : (j : Int) < (k : Int) := by exact_mod_cast hjk
  have hmo2 : (1 : Int) ≤ (mo : Int) := by exact_mod_cast hmo
  have : (mo : Int) * (j : Int) < (mo : Int) * (k : Int) := by nlinarith
  omega

theorem periodicDate_mono (start : Date) (mo j k : Nat)
    (hv : ValidDate start) (hmo : 1 ≤ mo) (hjk : j ≤ k) :
    dle (periodicDate start mo j) (periodicDate start mo k) := by
  rcases Nat.lt_or_ge j k with h | h
  · exact dle_of_dlt (periodicDate_strict_mono start mo j k hv hmo h)
  · have : j = k := le_antisymm hjk h
    rw [this]
    exact dle_refl _

/-- C1 counterexample: the maturity date the form computes for a start of
2025-01-31 with a one-month duration is 2025-03-03 (JS `Date` rollover), not
the clamped 2025-02-28 the claim asserts. -/
theorem maturity_date_not_clamped_cex :
    maturityDateCalc ⟨2025, 1, 31⟩ 1 = ⟨2025, 3, 3⟩ ∧
    addMonthsClamped ⟨2025, 1, 31⟩ 1 = ⟨2025, 2, 28⟩ ∧
    maturityDateCalc ⟨2025, 1, 31⟩ 1 ≠ addMonthsClamped ⟨2025, 1, 31⟩ 1 := by
  decide

/-- C1 (amended): the maturity date computed by the form equals the start
date plus `durationMonths` calendar months with JS `Date` normalisation:
when the start day fits in the target month it equals the clamped addition
the spec describes, and otherwise it rolls over into the month after the
target month by the excess days (so it differs from the clamped date). -/
theorem maturity_date_rollover (start : Date) (n : Nat) (hv : ValidDate start) :
    (start.d ≤ daysInMonth (targetMonth start (n : Int)).1
        (targetMonth start (n : Int)).2 →
      maturityDateCalc start n = addMonthsClamped start (n : Int)) ∧
    (daysInMonth (targetMonth start (n : Int)).1 (targetMonth start (n : Int)).2
        < start.d →
      maturityDateCalc start n =
        ⟨(targetMonth start (n : Int)).1, (targetMonth start (n : Int)).2 + 1,
         start.d - daysInMonth (targetMonth start (n : Int)).1
           (targetMonth start (n : Int)).2⟩ ∧
      maturityDateCalc start n ≠ addMonthsClamped start (n : Int)) := by
  obtain ⟨hm1, hm2, hd1, hd2⟩ := hv
  have hdimS := daysInMonth_bounds start.y start.m hm1 hm2
  have hd31 : start.d ≤ 31 := le_trans hd2 hdimS.2
  simp only [maturityDateCalc, addMonthsClamped, targetMonth]
  set m0 : Int := start.m - 1 + (n : Int) with hm0
  have hb1 : 1 ≤ m0 % 12 + 1 := by omega
  have hb2 : m0 % 12 + 1 ≤ 12 := by omega
  have hdim := daysInMonth_bounds (start.y + m0 / 12) (m0 % 12 + 1) hb1 hb2
  constructor
  · intro hle
    rw [jsMkDate_no_overflow start.y m0 start.d hle]
    rw [min_eq_left hle]
  · intro hlt
    rw [jsMkDate_overflow start.y m0 start.d hd31 hlt]
    refine ⟨rfl, ?_⟩
    rw [min_eq_right (le_of_lt hlt)]
    intro hcontra
    have hm := congrArg Date.m hcontra
    simp at hm

/-- C1 witness: the amended theorem applied to the concrete start 2025-01-31
with duration 1 month yields the rolled-over 2025-03-03. -/
theorem maturity_date_rollover_witness :
    ValidDate ⟨2025, 1, 31⟩ ∧ maturityDateCalc ⟨2025, 1, 31⟩ 1 = ⟨2025, 3, 3⟩ := by
  refine ⟨by decide, ?_⟩
  have h := (maturity_date_rollover ⟨2025, 1, 31⟩ 1 (by decide)).2 (by decide)
  exact h.1.trans (by decide)

/-- C2: for every valid start date, every non-Maturity return period and
every N, the N-th projected interest-due date (computed fresh from the start
date) equals the start date plus N times the period length in calendar
months, with the day clamped to the last day of the target month when the
start day does not exist there; consequently every entry the periodic
projection loop emits is dated at the clamped calendar-month addition for
its index. -/
theorem periodic_due_dates_clamped (start : Date) (p : ReturnPeriod) (N : Nat)
    (hv : ValidDate start) (hp : p ≠ ReturnPeriod.Maturity) :
    periodicDate start (monthsToAdd p) N =
      addMonthsClamped start ((monthsToAdd p : Int) * (N : Int)) := by
  exact periodicDate_eq_clamped start (monthsToAdd p) N hv

/-- C2 witness: a monthly investment started on 2025-01-31 projects its first
due date to 2025-02-28 and its second to 2025-03-31, both equal to the
clamped calendar additions. -/
theorem periodic_due_dates_clamped_witness :
    ValidDate ⟨2025, 1, 31⟩ ∧ ReturnPeriod.Monthly ≠ ReturnPeriod.Maturity ∧
    periodicDate ⟨2025, 1, 31⟩ (monthsToAdd ReturnPeriod.Monthly) 1 =
      addMonthsClamped ⟨2025, 1, 31⟩ 1 ∧
    periodicDate ⟨2025, 1, 31⟩ (monthsToAdd ReturnPeriod.Monthly) 1 =
      ⟨2025, 2, 28⟩ ∧
    periodicDate ⟨2025, 1, 31⟩ (monthsToAdd ReturnPeriod.Monthly) 2 =
      ⟨2025, 3, 31⟩ := by
  refine ⟨by decide, by decide, ?_, by decide, by decide⟩
  have h := periodic_due_dates_clamped ⟨2025, 1, 31⟩ ReturnPeriod.Monthly 1
    (by decide) (by decide)
  simpa using h

/-! ## Projection-loop lemmas and claims C3, C4 -/

theorem genPeriodicAux_mem (start : Date) (mo : Nat) (mat today : Date)
    (amt : ℚ) :
    ∀ fuel k, ∀ e ∈ genPeriodicAux start mo mat today amt fuel k,
      e.amount = amt ∧ e.date = periodicDate start mo e.idx ∧ k ≤ e.idx ∧
        (e.idx = k ∨ dle e.date mat) := by
  intro fuel
  induction fuel with
  | zero =>
    intro k e he
    simp [genPeriodicAux] at he
  | succ n ih =>
    intro k e he
    simp only [genPeriodicAux] at he
    by_cases h1 : dle (periodicDate start mo k) today
    · rw [if_pos h1] at he
      rcases List.mem_cons.mp he with h | h
      · subst h
        exact ⟨rfl, rfl, le_refl _, Or.inl rfl⟩
      · by_cases h2 : dlt mat (periodicDate start mo (k + 1))
        · rw [if_pos h2] at h
          simp at h
        · rw [if_neg h2] at h
          obtain ⟨ha, hd, hk, hor⟩ := ih (k + 1) e h
          refine ⟨ha, hd, by omega, Or.inr ?_⟩
          rcases hor with h3 | h3
          · rw [hd, h3]
            exact dle_of_not_dlt h2
          · exact h3
    · rw [if_neg h1] at he
      simp at he

theorem allEventsInterestAux_le_mat (start : Date) (mo : Nat)
    (mat today endD : Date) :
    ∀ fuel k, ∀ d ∈ allEventsInterestAux start mo mat today endD fuel k,
      dle d mat := by
  intro fuel
  induction fuel with
  | zero =>
    intro k d hd
    simp [allEventsInterestAux] at hd
  | succ n ih =>
    intro k d hd
    simp only [allEventsInterestAux] at hd
    by_cases h1 : dlt mat (periodicDate start mo k)
    · rw [if_pos h1] at hd
      simp at hd
    · rw [if_neg h1] at hd
      by_cases h2 : dle today (periodicDate start mo k)
      · rw [if_pos h2] at hd
        by_cases h3 : dlt endD (periodicDate start mo k)
        · rw [if_pos h3] at hd
          simp at hd
        · rw [if_neg h3] at hd
          rcases List.mem_cons.mp hd with h | h
          · subst h
            exact dle_of_not_dlt h1
          · exact ih (k + 1) d h
      · rw [if_neg h2] at hd
        exact ih (k + 1) d hd

theorem upcomingForInterest_props (fuel : Nat) (t : Tx)
    (dtl : InvestorDetails) (today : Date) :
    ∀ e ∈ upcomingForInterest fuel t dtl today,
      e.etype = UEventType.INTEREST ∧ dle e.date dtl.maturityDate := by
  intro e he
  simp only [upcomingForInterest] at he
  cases hpia : dtl.periodicInterestAmount with
  | none =>
    simp only [hpia] at he
    simp at he
  | some pia =>
    simp only [hpia] at he
    by_cases hz : pia = 0
    · rw [if_pos hz] at he
      simp at he
    · rw [if_neg hz] at he
      by_cases hm : dtl.returnPeriod = ReturnPeriod.Maturity
      · rw [if_pos hm] at he
        simp at he
      · rw [if_neg hm] at he
        by_cases hmo : monthsToAdd dtl.returnPeriod = 0
        · rw [if_pos hmo] at he
          simp at he
        · rw [if_neg hmo] at he
          by_cases hcond :
              dle (fastForwardAux t.date (monthsToAdd dtl.returnPeriod)
                today t.date 1 fuel) (jsAddDays today 30) ∧
              dle (fastForwardAux t.date (monthsToAdd dtl.returnPeriod)
                today t.date 1 fuel) dtl.maturityDate
          · rw [if_pos hcond] at he
            simp at he
            subst he
            exact ⟨rfl, hcond.2⟩
          · rw [if_neg hcond] at he
            simp at he

theorem eventsForInterest_etype (t : Tx) (dtl : InvestorDetails)
    (today endD : Date) :
    ∀ e ∈ eventsForInterest t dtl today endD,
      e.etype = UEventType.INTEREST := by
  intro e he
  simp only [eventsForInterest] at he
  cases hpia : dtl.periodicInterestAmount with
  | none =>
    simp only [hpia] at he
    simp at he
  | some pia =>
    simp only [hpia] at he
    by_cases hz : pia = 0
    · rw [if_pos hz] at he
      simp at he
    · rw [if_neg hz] at he
      by_cases hm : dtl.returnPeriod = ReturnPeriod.Maturity
      · rw [if_pos hm] at he
        simp at he
      · rw [if_neg hm] at he
        by_cases hmo : monthsToAdd dtl.returnPeriod = 0
        · rw [if_pos hmo] at he
          simp at he
        · rw [if_neg hmo] at he
          rcases List.mem_map.mp he with ⟨d, _, rfl⟩
          rfl

/-- Concrete investor details used to exercise claim C3: a yearly return
period on a 6-month investment, so the very first projected interest date
(start + 12 months) lies past the maturity date (start + 6 months). -/
def dtlC3 : InvestorDetails :=
  { investorName := "John"
    roi := 12
    returnPeriod := ReturnPeriod.Yearly
    durationMonths := 6
    maturityDate := ⟨2024, 7, 15⟩
    purpose := none
    periodicInterestAmount := some 120 }

def txC3 : Tx :=
  { id := "t1"
    userId := "u1"
    amount := 1000
    type := TxType.INCOME
    category := "Investor Funds"
    paymentMode := none
    date := ⟨2024, 1, 15⟩
    note := none
    timestamp := 0
    investorDetails := some dtlC3 }

/-- C3 counterexample: the dashboard projection for `txC3` (yearly period,
6-month duration, maturity 2024-07-15) emits its first interest entry dated
2025-01-15, strictly after the maturity date: the first emitted entry is not
subject to the maturity cut-off. -/
theorem first_interest_past_maturity_cex :
    (generateInterestEntries 10 txC3 ⟨2025, 6, 1⟩).map (fun e => e.date) =
      [⟨2025, 1, 15⟩] ∧
    dtlC3.maturityDate = ⟨2024, 7, 15⟩ ∧
    dlt dtlC3.maturityDate ⟨2025, 1, 15⟩ := by
  decide

/-- C3 (amended): in the dashboard ledger projection every emitted interest
entry except possibly the first (loop count 1) is dated on or before the
maturity date — the maturity cut-off is only checked from the second entry
on — while in the payment-calendar loop and the dashboard upcoming-payments
widget every emitted interest date is on or before the maturity date,
including the first. -/
theorem interest_dates_maturity_bound (fuel : Nat) (t : Tx) (today : Date)
    (dtl : InvestorDetails) (hdtl : t.investorDetails = some dtl) :
    (∀ e ∈ generateInterestEntries fuel t today,
        e.idx ≠ 1 → dle e.date dtl.maturityDate) ∧
    (∀ (start : Date) (mo : Nat) (mat today2 endD : Date),
        ∀ d ∈ allEventsInterest start mo mat today2 endD, dle d mat) ∧
    (∀ (fuel2 : Nat) (today2 : Date),
        ∀ e ∈ upcomingFor fuel2 t today2,
          e.etype = UEventType.INTEREST → dle e.date dtl.maturityDate) := by
  refine ⟨?_, ?_, ?_⟩
  · intro e he hidx
    simp only [generateInterestEntries, hdtl] at he
    by_cases hroi : dtl.roi = 0
    · rw [if_pos hroi] at he
      simp at he
    · rw [if_neg hroi] at he
      by_cases hamt : effInterestAmount t.amount dtl ≤ 0
      · rw [if_pos hamt] at he
        simp at he
      · rw [if_neg hamt] at he
        by_cases hmat : dtl.returnPeriod = ReturnPeriod.Maturity
        · rw [if_pos hmat] at he
          by_cases hdue : dle dtl.maturityDate today
          · rw [if_pos hdue] at he
            simp at he
            rw [he]
            exact dle_refl _
          · rw [if_neg hdue] at he
            simp at he
        · rw [if_neg hmat] at he
          by_cases hmo : monthsToAdd dtl.returnPeriod = 0
          · rw [if_pos hmo] at he
            simp at he
          · rw [if_neg hmo] at he
            obtain ⟨_, _, _, hor⟩ :=
              genPeriodicAux_mem t.date (monthsToAdd dtl.returnPeriod)
                dtl.maturityDate today (effInterestAmount t.amount dtl)
                fuel 1 e he
            exact hor.resolve_left hidx
  · intro start mo mat today2 endD d hd
    exact allEventsInterestAux_le_mat start mo mat today2 endD 50 1 d hd
  · intro fuel2 today2 e he hety
    simp only [upcomingFor, hdtl] at he
    by_cases hty : t.type = TxType.INCOME
    · rw [if_pos hty] at he
      rcases List.mem_append.mp he with h | h
      · by_cases hw : dle today2 dtl.maturityDate ∧
            dle dtl.maturityDate (jsAddDays today2 30)
        · rw [if_pos hw] at h
          simp at h
          rw [h] at hety
          simp at hety
        · rw [if_neg hw] at h
          simp at h
      · exact (upcomingForInterest_props fuel2 t dtl today2 e h).2
    · rw [if_neg hty] at he
      simp at he

/-- C3 witness: the amended bound applied to `txC3` — every entry past the
first is within maturity (here the projection emits only the first entry). -/
theorem interest_dates_maturity_bound_witness :
    txC3.investorDetails = some dtlC3 ∧
    (∀ e ∈ generateInterestEntries 10 txC3 ⟨2025, 6, 1⟩,
        e.idx ≠ 1 → dle e.date dtlC3.maturityDate) := by
  refine ⟨rfl, ?_⟩
  exact (interest_dates_maturity_bound 10 txC3 ⟨2025, 6, 1⟩ dtlC3 rfl).1

theorem allEventsInterestAux_mem (start : Date) (mo k : Nat)
    (mat today endD : Date) (hv : ValidDate start) (hmo : 1 ≤ mo)
    (h1 : dle today (periodicDate start mo k))
    (h2 : dle (periodicDate start mo k) endD)
    (h3 : dle (periodicDate start mo k) mat) :
    ∀ fuel j, j ≤ k → k < j + fuel →
      periodicDate start mo k ∈
        allEventsInterestAux start mo mat today endD fuel j := by
  intro fuel
  induction fuel with
  | zero =>
    intro j hj1 hj2
    omega
  | succ n ih =>
    intro j hj1 hj2
    have hmono : dle (periodicDate start mo j) (periodicDate start mo k) :=
      periodicDate_mono start mo j k hv hmo hj1
    have hnm : ¬ dlt mat (periodicDate start mo j) :=
      not_dlt_of_dle (dle_trans hmono h3)
    simp only [allEventsInterestAux]
    rw [if_neg hnm]
    by_cases hj : j = k
    · subst hj
      rw [if_pos h1, if_neg (not_dlt_of_dle h2)]
      exact List.mem_cons_self _ _
    · by_cases ht : dle today (periodicDate start mo j)
      · rw [if_pos ht, if_neg (not_dlt_of_dle (dle_trans hmono h2))]
        exact List.mem_cons_of_mem _ (ih (j + 1) (by omega) (by omega))
      · rw [if_neg ht]
        exact ih (j + 1) (by omega) (by omega)

/-- C4 counterexample: with the 5-year "ALL" window, a monthly transaction
started 2020-01-01 whose maturity (2026-01-01) lies beyond the window has its
51st occurrence (2024-04-01) inside the window and within maturity, yet the
calendar omits it — the 50-iteration safety cap drops occurrences. -/
theorem calendar_window_cap_cex :
    dle ⟨2020, 1, 1⟩ (periodicDate ⟨2020, 1, 1⟩ 1 51) ∧
    dle (periodicDate ⟨2020, 1, 1⟩ 1 51) (jsAddYears ⟨2020, 1, 1⟩ 5) ∧
    dle (periodicDate ⟨2020, 1, 1⟩ 1 51) ⟨2026, 1, 1⟩ ∧
    periodicDate ⟨2020, 1, 1⟩ 1 51 ∉
      allEventsInterest ⟨2020, 1, 1⟩ 1 ⟨2026, 1, 1⟩ ⟨2020, 1, 1⟩
        (jsAddYears ⟨2020, 1, 1⟩ 5) := by
  decide

/-- C4 (amended): the payment calendar emits every projected occurrence that
lies inside the requested window (from today through the window end, for any
window end) and does not exceed the maturity date, provided its period index
is at most the 50-iteration safety cap; occurrences past the cap are
dropped. -/
theorem calendar_emits_within_cap (start : Date) (mo k : Nat)
    (mat today endD : Date) (hv : ValidDate start) (hmo : 1 ≤ mo)
    (hk1 : 1 ≤ k) (hk50 : k ≤ 50)
    (h1 : dle today (periodicDate start mo k))
    (h2 : dle (periodicDate start mo k) endD)
    (h3 : dle (periodicDate start mo k) mat) :
    periodicDate start mo k ∈ allEventsInterest start mo mat today endD := by
  exact allEventsInterestAux_mem start mo k mat today endD hv hmo h1 h2 h3
    50 1 hk1 (by omega)

/-- C4 witness: the third monthly occurrence of a transaction started
2024-01-10 falls inside the window and is emitted by the calendar. -/
theorem calendar_emits_within_cap_witness :
    ValidDate ⟨2024, 1, 10⟩ ∧
    dle ⟨2024, 1, 1⟩ (periodicDate ⟨2024, 1, 10⟩ 1 3) ∧
    dle (periodicDate ⟨2024, 1, 10⟩ 1 3) ⟨2030, 1, 1⟩ ∧
    dle (periodicDate ⟨2024, 1, 10⟩ 1 3) ⟨2026, 1, 10⟩ ∧
    periodicDate ⟨2024, 1, 10⟩ 1 3 ∈
      allEventsInterest ⟨2024, 1, 10⟩ 1 ⟨2026, 1, 10⟩ ⟨2024, 1, 1⟩
        ⟨2030, 1, 1⟩ := by
  refine ⟨by decide, by decide, by decide, by decide, ?_⟩
  exact calendar_emits_within_cap ⟨2024, 1, 10⟩ 1 3 ⟨2026, 1, 10⟩ ⟨2024, 1, 1⟩
    ⟨2030, 1, 1⟩ (by decide) (by decide) (by decide) (by decide)
    (by decide) (by decide) (by decide)

/-! ## Claims C5, C6, C7 -/

def dtlC5 : InvestorDetails :=
  { investorName := "A"
    roi := 0
    returnPeriod := ReturnPeriod.Maturity
    durationMonths := 12
    maturityDate := ⟨2020, 1, 1⟩
    purpose := none
    periodicInterestAmount := none }

def txC5 : Tx :=
  { id := "t5"
    userId := "u1"
    amount := 100
    type := TxType.INCOME
    category := "Investor Funds"
    paymentMode := none
    date := ⟨2019, 1, 1⟩
    note := none
    timestamp := 0
    investorDetails := some dtlC5 }

/-- C5 counterexample: for a Maturity-period transaction with rate 0 the
claimed amount `principal × rate/100 × (durationMonths/12)` is 0 and the
maturity date has long passed, yet the projection emits nothing — "emitted
exactly when the maturity date is on or before the as-of date" fails when
the computed amount is not positive. -/
theorem maturity_interest_zero_rate_cex :
    txC5.investorDetails = some dtlC5 ∧
    dtlC5.returnPeriod = ReturnPeriod.Maturity ∧
    dtlC5.periodicInterestAmount = none ∧
    dle dtlC5.maturityDate ⟨2024, 1, 1⟩ ∧
    generateInterestEntries 5 txC5 ⟨2024, 1, 1⟩ = [] := by
  decide

/-- C5 (amended): for a Maturity-period transaction without a stored
periodic amount, the projection emits at most one interest event, every
emitted event is dated at the maturity date with amount
`principal × rate/100 × (durationMonths/12)`, and an event is emitted
exactly when the maturity date is on or before the as-of date AND that
computed amount is positive (with a zero rate, principal or duration,
nothing is emitted even after maturity). -/
theorem maturity_interest_event_spec (fuel : Nat) (t : Tx) (today : Date)
    (dtl : InvestorDetails) (hdtl : t.investorDetails = some dtl)
    (hp : dtl.returnPeriod = ReturnPeriod.Maturity)
    (hs : dtl.periodicInterestAmount = none) :
    (generateInterestEntries fuel t today).length ≤ 1 ∧
    (∀ e ∈ generateInterestEntries fuel t today,
       e.date = dtl.maturityDate ∧
       e.amount = t.amount * dtl.roi / 100 * ((dtl.durationMonths : ℚ) / 12)) ∧
    (generateInterestEntries fuel t today ≠ [] ↔
       (dle dtl.maturityDate today ∧
        0 < t.amount * dtl.roi / 100 * ((dtl.durationMonths : ℚ) / 12))) := by
  by_cases hroi : dtl.roi = 0
  · have hg : generateInterestEntries fuel t today = [] := by
      simp [generateInterestEntries, hdtl, hroi]
    rw [hg]
    refine ⟨by simp, by simp, ?_⟩
    simp [hroi]
  · have hamt : effInterestAmount t.amount dtl =
        t.amount * dtl.roi / 100 * ((dtl.durationMonths : ℚ) / 12) := by
      simp [effInterestAmount, hs, hp, hroi]
    by_cases hle : t.amount * dtl.roi / 100 * ((dtl.durationMonths : ℚ) / 12) ≤ 0
    · have hne : effInterestAmount t.amount dtl ≤ 0 := by
        rw [hamt]; exact hle
      have hg : generateInterestEntries fuel t today = [] := by
        simp [generateInterestEntries, hdtl, hroi, hne]
      rw [hg]
      refine ⟨by simp, by simp, ?_⟩
      simp [not_lt.mpr hle]
    · have hne : ¬ (effInterestAmount t.amount dtl ≤ 0) := by
        rw [hamt]; exact hle
      push_neg at hle
      by_cases hdue : dle dtl.maturityDate today
      · have hg : generateInterestEntries fuel t today =
            [⟨0, dtl.maturityDate, effInterestAmount t.amount dtl⟩] := by
          simp [generateInterestEntries, hdtl, hroi, hne, hp, hdue]
        rw [hg]
        refine ⟨by simp, ?_, ?_⟩
        · intro e he
          simp at he
          subst he
          exact ⟨rfl, hamt⟩
        · simp [hdue, hle]
      · have hg : generateInterestEntries fuel t today = [] := by
          simp [generateInterestEntries, hdtl, hroi, hne, hp, hdue]
        rw [hg]
        refine ⟨by simp, by simp, ?_⟩
        simp [hdue]

def dtlC5w : InvestorDetails :=
  { investorName := "B"
    roi := 12
    returnPeriod := ReturnPeriod.Maturity
    durationMonths := 12
    maturityDate := ⟨2020, 1, 1⟩
    purpose := none
    periodicInterestAmount := none }

def txC5w : Tx :=
  { id := "t5w"
    userId := "u1"
    amount := 1000
    type := TxType.INCOME
    category := "Investor Funds"
    paymentMode := none
    date := ⟨2019, 1, 1⟩
    note := none
    timestamp := 0
    investorDetails := some dtlC5w }

/-- C5 witness: the amended characterisation applied to a concrete matured
Maturity-period transaction. -/
theorem maturity_interest_event_spec_witness :
    txC5w.investorDetails = some dtlC5w ∧
    dtlC5w.returnPeriod = ReturnPeriod.Maturity ∧
    dtlC5w.periodicInterestAmount = none ∧
    (generateInterestEntries 5 txC5w ⟨2024, 1, 1⟩).length ≤ 1 :=
  ⟨rfl, rfl, rfl,
   (maturity_interest_event_spec 5 txC5w ⟨2024, 1, 1⟩ dtlC5w rfl rfl rfl).1⟩

theorem filter_principal_eq_nil (l : List UEvent)
    (h : ∀ e ∈ l, e.etype = UEventType.INTEREST) :
    l.filter (fun e => decide (e.etype = UEventType.PRINCIPAL)) = [] := by
  induction l with
  | nil => rfl
  | cons a rest ih =>
    have ha := h a (List.mem_cons_self a rest)
    rw [List.filter_cons]
    simp [ha, ih (fun e he => h e (List.mem_cons_of_mem a he))]

def dtlC6 : InvestorDetails :=
  { investorName := "Mira"
    roi := 12
    returnPeriod := ReturnPeriod.Monthly
    durationMonths := 3
    maturityDate := ⟨2024, 3, 1⟩
    purpose := none
    periodicInterestAmount := none }

def txC6 : Tx :=
  { id := "t6"
    userId := "u1"
    amount := 5000
    type := TxType.INCOME
    category := "Investor Funds"
    paymentMode := none
    date := ⟨2023, 12, 1⟩
    note := none
    timestamp := 0
    investorDetails := some dtlC6 }

/-- C6 counterexample: a transaction whose maturity date (2024-03-01) lies
before today (2024-05-01) contributes no principal-maturity event at all to
the payment calendar or the dashboard widget — not "exactly one". -/
theorem principal_event_omitted_cex :
    txC6.investorDetails = some dtlC6 ∧
    eventsFor txC6 ⟨2024, 5, 1⟩ (jsAddYears ⟨2024, 5, 1⟩ 5) = [] ∧
    upcomingFor 100 txC6 ⟨2024, 5, 1⟩ = [] := by
  decide

/-- C6 (amended): an investor transaction contributes exactly one
principal-maturity event — dated at its maturity date with amount equal to
its principal — precisely when the maturity date falls inside the
forward-looking window ([today, window end] for the calendar, the next 30
days for the dashboard widget); otherwise it contributes none. -/
theorem principal_event_iff_window (t : Tx) (today endD : Date)
    (dtl : InvestorDetails) (hdtl : t.investorDetails = some dtl) :
    ((eventsFor t today endD).filter
        (fun e => decide (e.etype = UEventType.PRINCIPAL)) =
      if dle today dtl.maturityDate ∧ dle dtl.maturityDate endD
      then [⟨UEventType.PRINCIPAL, dtl.maturityDate, t.amount⟩] else []) ∧
    (∀ fuel2 today2, t.type = TxType.INCOME →
      ((upcomingFor fuel2 t today2).filter
          (fun e => decide (e.etype = UEventType.PRINCIPAL)) =
        if dle today2 dtl.maturityDate ∧
            dle dtl.maturityDate (jsAddDays today2 30)
        then [⟨UEventType.PRINCIPAL, dtl.maturityDate, t.amount⟩] else [])) := by
  constructor
  · simp only [eventsFor, hdtl]
    rw [List.filter_append,
      filter_principal_eq_nil _ (eventsForInterest_etype t dtl today endD),
      List.append_nil]
    by_cases hw : dle today dtl.maturityDate ∧ dle dtl.maturityDate endD
    · rw [if_pos hw]
      rfl
    · rw [if_neg hw]
      rfl
  · intro fuel2 today2 hty
    simp only [upcomingFor, hdtl]
    rw [if_pos hty]
    rw [List.filter_append,
      filter_principal_eq_nil _
        (fun e he => (upcomingForInterest_props fuel2 t dtl today2 e he).1),
      List.append_nil]
    by_cases hw : dle today2 dtl.maturityDate ∧
        dle dtl.maturityDate (jsAddDays today2 30)
    · rw [if_pos hw]
      rfl
    · rw [if_neg hw]
      rfl

def dtlC6w : InvestorDetails :=
  { investorName := "Mira"
    roi := 12
    returnPeriod := ReturnPeriod.Monthly
    durationMonths := 6
    maturityDate := ⟨2024, 6, 1⟩
    purpose := none
    periodicInterestAmount := none }

def txC6w : Tx :=
  { id := "t6w"
    userId := "u1"
    amount := 5000
    type := TxType.INCOME
    category := "Investor Funds"
    paymentMode := none
    date := ⟨2023, 12, 1⟩
    note := none
    timestamp := 0
    investorDetails := some dtlC6w }

/-- C6 witness: for a maturity date inside the calendar window the filtered
principal events are exactly the one expected event. -/
theorem principal_event_iff_window_witness :
    txC6w.investorDetails = some dtlC6w ∧
    (eventsFor txC6w ⟨2024, 5, 1⟩ ⟨2025, 1, 1⟩).filter
        (fun e => decide (e.etype = UEventType.PRINCIPAL)) =
      [⟨UEventType.PRINCIPAL, ⟨2024, 6, 1⟩, 5000⟩] := by
  refine ⟨rfl, ?_⟩
  have h := (principal_event_iff_window txC6w ⟨2024, 5, 1⟩ ⟨2025, 1, 1⟩
    dtlC6w rfl).1
  rw [h]
  decide

/-- C7: for every non-Maturity return period, the periodic interest amount
the form preview computes and the amount the ledger projection recomputes
when no periodic amount is stored both equal
`(principal × rate / 100) / periods-per-year` with divisor 12, 4, 2 or 1 for
Monthly, Quarterly, Half-Yearly or Yearly. -/
theorem periodic_amount_formula (principal rate : ℚ) (dtl : InvestorDetails)
    (p : ReturnPeriod) (hp : dtl.returnPeriod = p)
    (hn : dtl.periodicInterestAmount = none)
    (hm : p ≠ ReturnPeriod.Maturity) :
    interestAmountForm principal rate p =
      principal * rate / 100 / periodsPerYear p ∧
    effInterestAmount principal dtl =
      principal * dtl.roi / 100 / periodsPerYear p := by
  constructor
  · cases p <;> simp [interestAmountForm, periodsPerYear] <;>
      first
        | rfl
        | exact absurd rfl hm
  · by_cases hroi : dtl.roi = 0
    · cases p <;>
        simp [effInterestAmount, hn, hroi, periodsPerYear] <;>
        first
          | exact absurd rfl hm
          | skip
    · cases p <;>
        simp [effInterestAmount, hn, hp, hroi, periodsPerYear] <;>
        first
          | rfl
          | exact absurd rfl hm

/-- C7 witness: the formula applied at a concrete monthly investment. -/
theorem periodic_amount_formula_witness :
    ({ investorName := "W", roi := 12,
       returnPeriod := ReturnPeriod.Monthly, durationMonths := 12,
       maturityDate := ⟨2025, 1, 1⟩, purpose := none,
       periodicInterestAmount := none } : InvestorDetails).returnPeriod =
      ReturnPeriod.Monthly ∧
    ReturnPeriod.Monthly ≠ ReturnPeriod.Maturity ∧
    interestAmountForm 1000 12 ReturnPeriod.Monthly =
      1000 * 12 / 100 / periodsPerYear ReturnPeriod.Monthly :=
  ⟨rfl, by decide,
   (periodic_amount_formula 1000 12
     { investorName := "W", roi := 12,
       returnPeriod := ReturnPeriod.Monthly, durationMonths := 12,
       maturityDate := ⟨2025, 1, 1⟩, purpose := none,
       periodicInterestAmount := none }
     ReturnPeriod.Monthly rfl rfl (by decide)).1⟩

/-! ## Ledger-aggregation lemmas (claim C8) -/

theorem findAcc_updAcc_self (k : List Char) (f : Account → Account)
    (s : List (List Char × Account)) :
    findAcc k (updAcc k f s) = (findAcc k s).map f := by
  induction s with
  | nil => rfl
  | cons pr rest ih =>
    obtain ⟨k2, a⟩ := pr
    by_cases h : k2 = k
    · simp [updAcc, findAcc, h]
    · simp [updAcc, findAcc, h, ih]

theorem findAcc_updAcc_ne (k k2 : List Char) (f : Account → Account)
    (s : List (List Char × Account)) (h : k2 ≠ k) :
    findAcc k2 (updAcc k f s) = findAcc k2 s := by
  induction s with
  | nil => rfl
  | cons pr rest ih =>
    obtain ⟨k3, a⟩ := pr
    simp only [updAcc]
    by_cases h3 : k3 = k
    · rw [if_pos h3]
      have hne : ¬ (k3 = k2) := by
        rw [h3]
        exact fun hh => h hh.symm
      simp only [findAcc, if_neg hne]
    · rw [if_neg h3]
      simp only [findAcc]
      by_cases h4 : k3 = k2
      · simp only [if_pos h4]
      · simp only [if_neg h4]
        exact ih

theorem findAcc_append_of_none (k : List Char)
    (s l : List (List Char × Account)) (h : findAcc k s = none) :
    findAcc k (s ++ l) = findAcc k l := by
  induction s with
  | nil => rfl
  | cons pr rest ih =>
    obtain ⟨k2, a⟩ := pr
    by_cases h2 : k2 = k
    · simp [findAcc, h2] at h
    · simp only [findAcc, h2] at h
      simp only [List.cons_append, findAcc, if_neg h2]
      exact ih h

theorem findAcc_append_ne (k k0 : List Char) (a0 : Account)
    (s : List (List Char × Account)) (h : k ≠ k0) :
    findAcc k (s ++ [(k0, a0)]) = findAcc k s := by
  induction s with
  | nil =>
    have hne : ¬ (k0 = k) := fun hh => h hh.symm
    simp [findAcc, hne]
  | cons pr rest ih =>
    obtain ⟨k2, a⟩ := pr
    by_cases h2 : k2 = k <;> simp [findAcc, h2, ih]

theorem findAcc_eq_none_iff (k : List Char)
    (s : List (List Char × Account)) :
    findAcc k s = none ↔ k ∉ s.map Prod.fst := by
  induction s with
  | nil => simp [findAcc]
  | cons pr rest ih =>
    obtain ⟨k2, a⟩ := pr
    simp only [findAcc, List.map_cons, List.mem_cons]
    by_cases h : k2 = k
    · subst h
      rw [if_pos rfl]
      constructor
      · intro hco
        exact (Option.some_ne_none a hco).elim
      · intro hni
        exact (hni (Or.inl rfl)).elim
    · rw [if_neg h, ih]
      constructor
      · intro hni hor
        rcases hor with hor | hor
        · exact h hor.symm
        · exact hni hor
      · intro hni hmem
        exact hni (Or.inr hmem)

theorem updAcc_keys (k : List Char) (f : Account → Account)
    (s : List (List Char × Account)) :
    (updAcc k f s).map Prod.fst = s.map Prod.fst := by
  induction s with
  | nil => rfl
  | cons pr rest ih =>
    obtain ⟨k2, a⟩ := pr
    by_cases h : k2 = k <;> simp [updAcc, h, ih]

theorem findAcc_of_mem (k : List Char) (a : Account)
    (s : List (List Char × Account)) (hnd : (s.map Prod.fst).Nodup)
    (hm : (k, a) ∈ s) : findAcc k s = some a := by
  induction s with
  | nil => simp at hm
  | cons pr rest ih =>
    obtain ⟨k2, b⟩ := pr
    simp only [List.map_cons, List.nodup_cons] at hnd
    rcases List.mem_cons.mp hm with h | h
    · rw [Prod.mk.injEq] at h
      obtain ⟨h1, h2⟩ := h
      subst h1
      subst h2
      simp [findAcc]
    · have hk : k2 ≠ k := by
        intro he
        subst he
        exact hnd.1 (List.mem_map_of_mem Prod.fst h)
      simp only [findAcc, if_neg hk]
      exact ih hnd.2 h

theorem keyedFor_append_key (k : List Char) (p : List Tx) (t : Tx)
    (h : keyOf t = some k) :
    keyedFor k (p ++ [t]) = keyedFor k p ++ [t] := by
  simp [keyedFor, List.filter_append, h]

theorem keyedFor_append_no (k : List Char) (p : List Tx) (t : Tx)
    (h : ¬ (keyOf t = some k)) :
    keyedFor k (p ++ [t]) = keyedFor k p := by
  simp [keyedFor, List.filter_append, h]

theorem incomesFor_append_income (k : List Char) (p : List Tx) (t : Tx)
    (h : keyOf t = some k) (hty : t.type = TxType.INCOME) :
    incomesFor k (p ++ [t]) = incomesFor k p ++ [t] := by
  simp [incomesFor, keyedFor_append_key k p t h, List.filter_append, hty]

theorem incomesFor_append_expense (k : List Char) (p : List Tx) (t : Tx)
    (h : keyOf t = some k) (hty : t.type = TxType.EXPENSE) :
    incomesFor k (p ++ [t]) = incomesFor k p := by
  simp [incomesFor, keyedFor_append_key k p t h, List.filter_append, hty]

theorem incomesFor_append_no (k : List Char) (p : List Tx) (t : Tx)
    (h : ¬ (keyOf t = some k)) :
    incomesFor k (p ++ [t]) = incomesFor k p := by
  simp [incomesFor, keyedFor_append_no k p t h]

theorem expensesFor_append_expense (k : List Char) (p : List Tx) (t : Tx)
    (h : keyOf t = some k) (hty : t.type = TxType.EXPENSE) :
    expensesFor k (p ++ [t]) = expensesFor k p ++ [t] := by
  simp [expensesFor, keyedFor_append_key k p t h, List.filter_append, hty]

theorem expensesFor_append_income (k : List Char) (p : List Tx) (t : Tx)
    (h : keyOf t = some k) (hty : t.type = TxType.INCOME) :
    expensesFor k (p ++ [t]) = expensesFor k p := by
  simp [expensesFor, keyedFor_append_key k p t h, List.filter_append, hty]

theorem expensesFor_append_no (k : List Char) (p : List Tx) (t : Tx)
    (h : ¬ (keyOf t = some k)) :
    expensesFor k (p ++ [t]) = expensesFor k p := by
  simp [expensesFor, keyedFor_append_no k p t h]

theorem displayNameOf_append_income (k : List Char) (p : List Tx) (t : Tx)
    (h : keyOf t = some k) (hty : t.type = TxType.INCOME) :
    displayNameOf k (p ++ [t]) = rawName t := by
  simp [displayNameOf, incomesFor_append_income k p t h hty]

theorem displayNameOf_append_expense (k : List Char) (p : List Tx) (t : Tx)
    (h : keyOf t = some k) (hty : t.type = TxType.EXPENSE)
    (hne : keyedFor k p ≠ []) :
    displayNameOf k (p ++ [t]) = displayNameOf k p := by
  simp only [displayNameOf, incomesFor_append_expense k p t h hty]
  cases hl : (incomesFor k p).getLast? with
  | some t2 => rfl
  | none =>
    rw [keyedFor_append_key k p t h]
    rcases List.exists_cons_of_ne_nil hne with ⟨t0, rest, hre⟩
    rw [hre]
    rfl

theorem displayNameOf_append_first (k : List Char) (p : List Tx) (t : Tx)
    (h : keyOf t = some k) (hemp : keyedFor k p = []) :
    displayNameOf k (p ++ [t]) = rawName t := by
  have hinc : incomesFor k p = [] := by simp [incomesFor, hemp]
  cases hty : t.type with
  | INCOME => exact displayNameOf_append_income k p t h hty
  | EXPENSE =>
    simp only [displayNameOf, incomesFor_append_expense k p t h hty, hinc]
    rw [keyedFor_append_key k p t h, hemp]
    rfl

theorem displayNameOf_append_no (k : List Char) (p : List Tx) (t : Tx)
    (h : ¬ (keyOf t = some k)) :
    displayNameOf k (p ++ [t]) = displayNameOf k p := by
  simp [displayNameOf, incomesFor_append_no k p t h, keyedFor_append_no k p t h]

theorem keyOf_income_details (t : Tx) (k : List Char) (h : keyOf t = some k)
    (hty : t.type = TxType.INCOME) : ∃ dtl, t.investorDetails = some dtl := by
  cases hdt : t.investorDetails with
  | some dtl => exact ⟨dtl, rfl⟩
  | none =>
    simp [keyOf, hty, hdt] at h

theorem keyOf_lower_rawName (t : Tx) (k : List Char) (h : keyOf t = some k) :
    lower (rawName t) = k := by
  cases hty : t.type with
  | INCOME =>
    cases hdt : t.investorDetails with
    | none => simp [keyOf, hty, hdt] at h
    | some dtl =>
      simp only [keyOf, hty, hdt] at h
      by_cases hnm : dtl.investorName = ""
      · rw [if_pos hnm] at h
        simp at h
      · rw [if_neg hnm] at h
        simp only [rawName, hty, hdt]
        injection h with hh
  | EXPENSE =>
    simp only [keyOf, hty] at h
    by_cases hc : t.category = ""
    · rw [if_pos hc] at h
      simp at h
    · rw [if_neg hc] at h
      have hraw : rawName t = t.category := by
        cases hdt : t.investorDetails <;> simp only [rawName, hty, hdt]
      rw [hraw]
      injection h with hh

theorem principalOf_append_income (k : List Char) (p : List Tx) (t : Tx)
    (h : keyOf t = some k) (hty : t.type = TxType.INCOME) :
    principalOf k (p ++ [t]) = principalOf k p + t.amount := by
  simp [principalOf, incomesFor_append_income k p t h hty]

theorem principalOf_append_expense (k : List Char) (p : List Tx) (t : Tx)
    (h : keyOf t = some k) (hty : t.type = TxType.EXPENSE) :
    principalOf k (p ++ [t]) = principalOf k p := by
  simp [principalOf, incomesFor_append_expense k p t h hty]

theorem principalOf_append_no (k : List Char) (p : List Tx) (t : Tx)
    (h : ¬ (keyOf t = some k)) :
    principalOf k (p ++ [t]) = principalOf k p := by
  simp [principalOf, incomesFor_append_no k p t h]

theorem interestOf_append_income (fuel : Nat) (today : Date) (k : List Char)
    (p : List Tx) (t : Tx) (h : keyOf t = some k)
    (hty : t.type = TxType.INCOME) :
    interestOf fuel today k (p ++ [t]) = interestOf fuel today k p +
      ((generateInterestEntries fuel t today).map (fun e => e.amount)).sum := by
  simp [interestOf, incomesFor_append_income k p t h hty]

theorem interestOf_append_expense (fuel : Nat) (today : Date) (k : List Char)
    (p : List Tx) (t : Tx) (h : keyOf t = some k)
    (hty : t.type = TxType.EXPENSE) :
    interestOf fuel today k (p ++ [t]) = interestOf fuel today k p := by
  simp [interestOf, incomesFor_append_expense k p t h hty]

theorem interestOf_append_no (fuel : Nat) (today : Date) (k : List Char)
    (p : List Tx) (t : Tx) (h : ¬ (keyOf t = some k)) :
    interestOf fuel today k (p ++ [t]) = interestOf fuel today k p := by
  simp [interestOf, incomesFor_append_no k p t h]

theorem paidOf_append_expense (k : List Char) (p : List Tx) (t : Tx)
    (h : keyOf t = some k) (hty : t.type = TxType.EXPENSE) :
    paidOf k (p ++ [t]) = paidOf k p + t.amount := by
  simp [paidOf, expensesFor_append_expense k p t h hty]

theorem paidOf_append_income (k : List Char) (p : List Tx) (t : Tx)
    (h : keyOf t = some k) (hty : t.type = TxType.INCOME) :
    paidOf k (p ++ [t]) = paidOf k p := by
  simp [paidOf, expensesFor_append_income k p t h hty]

theorem paidOf_append_no (k : List Char) (p : List Tx) (t : Tx)
    (h : ¬ (keyOf t = some k)) :
    paidOf k (p ++ [t]) = paidOf k p := by
  simp [paidOf, expensesFor_append_no k p t h]

/-- Invariant of the first pass of `investorAccounts`: after processing the
prefix `p`, every stored account carries exactly the sums and display name
of the prefix, absent keys have no matching transaction, and keys are not
duplicated. -/
def AccInv (fuel : Nat) (today : Date) (p : List Tx)
    (s : List (List Char × Account)) : Prop :=
  (∀ k a, findAcc k s = some a →
    a.totalPrincipal = principalOf k p ∧
    a.totalInterestAccrued = interestOf fuel today k p ∧
    a.totalPaid = paidOf k p ∧
    a.name = displayNameOf k p ∧
    keyedFor k p ≠ []) ∧
  (∀ k, findAcc k s = none → keyedFor k p = []) ∧
  (s.map Prod.fst).Nodup

theorem accStep_inv (fuel : Nat) (today : Date) (p : List Tx)
    (s : List (List Char × Account)) (t : Tx)
    (h : AccInv fuel today p s) :
    AccInv fuel today (p ++ [t]) (accStep fuel today s t) := by
  obtain ⟨hsome, hnone, hnd⟩ := h
  cases hk : keyOf t with
  | none =>
    have hno : ∀ k : List Char, ¬ (keyOf t = some k) := by
      intro k hh
      rw [hk] at hh
      exact Option.noConfusion hh
    have hstep : accStep fuel today s t = s := by
      simp [accStep, hk]
    rw [hstep]
    refine ⟨?_, ?_, hnd⟩
    · intro k a hfind
      obtain ⟨h1, h2, h3, h4, h5⟩ := hsome k a hfind
      refine ⟨?_, ?_, ?_, ?_, ?_⟩
      · rw [principalOf_append_no k p t (hno k)]; exact h1
      · rw [interestOf_append_no fuel today k p t (hno k)]; exact h2
      · rw [paidOf_append_no k p t (hno k)]; exact h3
      · rw [displayNameOf_append_no k p t (hno k)]; exact h4
      · rw [keyedFor_append_no k p t (hno k)]; exact h5
    · intro k hfind
      rw [keyedFor_append_no k p t (hno k)]
      exact hnone k hfind
  | some k0 =>
    have hother : ∀ k, k ≠ k0 → ¬ (keyOf t = some k) := by
      intro k hkk hh
      rw [hk] at hh
      injection hh with hh2
      exact hkk hh2.symm
    have hkeyne : keyedFor k0 (p ++ [t]) ≠ [] := by
      rw [keyedFor_append_key k0 p t hk]
      simp
    cases hty : t.type with
    | INCOME =>
      obtain ⟨dtl, hdt⟩ := keyOf_income_details t k0 hk hty
      cases hfa : findAcc k0 s with
      | none =>
        have hemp : keyedFor k0 p = [] := hnone k0 hfa
        have hP0 : principalOf k0 p = 0 := by
          simp [principalOf, incomesFor, hemp]
        have hI0 : interestOf fuel today k0 p = 0 := by
          simp [interestOf, incomesFor, hemp]
        have hPd0 : paidOf k0 p = 0 := by
          simp [paidOf, expensesFor, hemp]
        have hstep : accStep fuel today s t =
            updAcc k0 (fun a =>
              { a with
                totalPrincipal := a.totalPrincipal + t.amount
                totalInterestAccrued := a.totalInterestAccrued +
                  ((generateInterestEntries fuel t today).map
                    (fun e => e.amount)).sum })
              (s ++ [(k0, ⟨rawName t, 0, 0, 0⟩)]) := by
          simp [accStep, hk, hfa, hty, hdt]
        rw [hstep]
        refine ⟨?_, ?_, ?_⟩
        · intro k a hfind
          by_cases hkk : k = k0
          · subst hkk
            rw [findAcc_updAcc_self,
              findAcc_append_of_none k s _ hfa] at hfind
            simp only [findAcc, if_pos rfl, Option.map_some'] at hfind
            injection hfind with hfe
            subst hfe
            refine ⟨?_, ?_, ?_, ?_, hkeyne⟩
            · rw [principalOf_append_income k p t hk hty, hP0]
            · rw [interestOf_append_income fuel today k p t hk hty, hI0]
            · rw [paidOf_append_income k p t hk hty, hPd0]
            · rw [displayNameOf_append_income k p t hk hty]
          · rw [findAcc_updAcc_ne k0 k _ _ hkk,
              findAcc_append_ne k k0 _ s hkk] at hfind
            obtain ⟨h1, h2, h3, h4, h5⟩ := hsome k a hfind
            refine ⟨?_, ?_, ?_, ?_, ?_⟩
            · rw [principalOf_append_no k p t (hother k hkk)]; exact h1
            · rw [interestOf_append_no fuel today k p t (hother k hkk)]
              exact h2
            · rw [paidOf_append_no k p t (hother k hkk)]; exact h3
            · rw [displayNameOf_append_no k p t (hother k hkk)]; exact h4
            · rw [keyedFor_append_no k p t (hother k hkk)]; exact h5
        · intro k hfind
          by_cases hkk : k = k0
          · subst hkk
            rw [findAcc_updAcc_self,
              findAcc_append_of_none k s _ hfa] at hfind
            simp [findAcc] at hfind
          · rw [findAcc_updAcc_ne k0 k _ _ hkk,
              findAcc_append_ne k k0 _ s hkk] at hfind
            rw [keyedFor_append_no k p t (hother k hkk)]
            exact hnone k hfind
        · rw [updAcc_keys, List.map_append]
          rw [List.nodup_append]
          refine ⟨hnd, by simp, ?_⟩
          intro x hx hxmem
          simp at hxmem
          rw [hxmem] at hx
          exact (findAcc_eq_none_iff k0 s).mp hfa hx
      | some a0 =>
        obtain ⟨g1, g2, g3, g4, g5⟩ := hsome k0 a0 hfa
        have hstep : accStep fuel today s t =
            updAcc k0 (fun a =>
              { a with
                totalPrincipal := a.totalPrincipal + t.amount
                totalInterestAccrued := a.totalInterestAccrued +
                  ((generateInterestEntries fuel t today).map
                    (fun e => e.amount)).sum })
              (updAcc k0 (fun a => { a with name := rawName t }) s) := by
          simp [accStep, hk, hfa, hty, hdt]
        rw [hstep]
        refine ⟨?_, ?_, ?_⟩
        · intro k a hfind
          by_cases hkk : k = k0
          · subst hkk
            rw [findAcc_updAcc_self, findAcc_updAcc_self, hfa] at hfind
            simp only [Option.map_some'] at hfind
            injection hfind with hfe
            subst hfe
            refine ⟨?_, ?_, ?_, ?_, hkeyne⟩
            · rw [principalOf_append_income k p t hk hty, ← g1]
            · rw [interestOf_append_income fuel today k p t hk hty, ← g2]
            · rw [paidOf_append_income k p t hk hty, ← g3]
            · rw [displayNameOf_append_income k p t hk hty]
          · rw [findAcc_updAcc_ne k0 k _ _ hkk,
              findAcc_updAcc_ne k0 k _ _ hkk] at hfind
            obtain ⟨h1, h2, h3, h4, h5⟩ := hsome k a hfind
            refine ⟨?_, ?_, ?_, ?_, ?_⟩
            · rw [principalOf_append_no k p t (hother k hkk)]; exact h1
            · rw [interestOf_append_no fuel today k p t (hother k hkk)]
              exact h2
            · rw [paidOf_append_no k p t (hother k hkk)]; exact h3
            · rw [displayNameOf_append_no k p t (hother k hkk)]; exact h4
            · rw [keyedFor_append_no k p t (hother k hkk)]; exact h5
        · intro k hfind
          by_cases hkk : k = k0
          · subst hkk
            rw [findAcc_updAcc_self, findAcc_updAcc_self, hfa] at hfind
            simp at hfind
          · rw [findAcc_updAcc_ne k0 k _ _ hkk,
              findAcc_updAcc_ne k0 k _ _ hkk] at hfind
            rw [keyedFor_append_no k p t (hother k hkk)]
            exact hnone k hfind
        · rw [updAcc_keys, updAcc_keys]
          exact hnd
    | EXPENSE =>
      cases hfa : findAcc k0 s with
      | none =>
        have hemp : keyedFor k0 p = [] := hnone k0 hfa
        have hP0 : principalOf k0 p = 0 := by
          simp [principalOf, incomesFor, hemp]
        have hI0 : interestOf fuel today k0 p = 0 := by
          simp [interestOf, incomesFor, hemp]
        have hPd0 : paidOf k0 p = 0 := by
          simp [paidOf, expensesFor, hemp]
        have hstep : accStep fuel today s t =
            updAcc k0 (fun a => { a with totalPaid := a.totalPaid + t.amount })
              (s ++ [(k0, ⟨rawName t, 0, 0, 0⟩)]) := by
          simp [accStep, hk, hfa, hty]
        rw [hstep]
        refine ⟨?_, ?_, ?_⟩
        · intro k a hfind
          by_cases hkk : k = k0
          · subst hkk
            rw [findAcc_updAcc_self,
              findAcc_append_of_none k s _ hfa] at hfind
            simp only [findAcc, if_pos rfl, Option.map_some'] at hfind
            injection hfind with hfe
            subst hfe
            refine ⟨?_, ?_, ?_, ?_, hkeyne⟩
            · rw [principalOf_append_expense k p t hk hty, hP0]
            · rw [interestOf_append_expense fuel today k p t hk hty, hI0]
            · rw [paidOf_append_expense k p t hk hty, hPd0]
            · rw [displayNameOf_append_first k p t hk hemp]
          · rw [findAcc_updAcc_ne k0 k _ _ hkk,
              findAcc_append_ne k k0 _ s hkk] at hfind
            obtain ⟨h1, h2, h3, h4, h5⟩ := hsome k a hfind
            refine ⟨?_, ?_, ?_, ?_, ?_⟩
            · rw [principalOf_append_no k p t (hother k hkk)]; exact h1
            · rw [interestOf_append_no fuel today k p t (hother k hkk)]
              exact h2
            · rw [paidOf_append_no k p t (hother k hkk)]; exact h3
            · rw [displayNameOf_append_no k p t (hother k hkk)]; exact h4
            · rw [keyedFor_append_no k p t (hother k hkk)]; exact h5
        · intro k hfind
          by_cases hkk : k = k0
          · subst hkk
            rw [findAcc_updAcc_self,
              findAcc_append_of_none k s _ hfa] at hfind
            simp [findAcc] at hfind
          · rw [findAcc_updAcc_ne k0 k _ _ hkk,
              findAcc_append_ne k k0 _ s hkk] at hfind
            rw [keyedFor_append_no k p t (hother k hkk)]
            exact hnone k hfind
        · rw [updAcc_keys, List.map_append]
          rw [List.nodup_append]
          refine ⟨hnd, by simp, ?_⟩
          intro x hx hxmem
          simp at hxmem
          rw [hxmem] at hx
          exact (findAcc_eq_none_iff k0 s).mp hfa hx
      | some a0 =>
        obtain ⟨g1, g2, g3, g4, g5⟩ := hsome k0 a0 hfa
        have hstep : accStep fuel today s t =
            updAcc k0 (fun a => { a with totalPaid := a.totalPaid + t.amount })
              s := by
          simp [accStep, hk, hfa, hty]
        rw [hstep]
        refine ⟨?_, ?_, ?_⟩
        · intro k a hfind
          by_cases hkk : k = k0
          · subst hkk
            rw [findAcc_updAcc_self, hfa] at hfind
            simp only [Option.map_some'] at hfind
            injection hfind with hfe
            subst hfe
            refine ⟨?_, ?_, ?_, ?_, hkeyne⟩
            · rw [principalOf_append_expense k p t hk hty, ← g1]
            · rw [interestOf_append_expense fuel today k p t hk hty, ← g2]
            · rw [paidOf_append_expense k p t hk hty, ← g3]
            · rw [displayNameOf_append_expense k p t hk hty g5, ← g4]
          · rw [findAcc_updAcc_ne k0 k _ _ hkk] at hfind
            obtain ⟨h1, h2, h3, h4, h5⟩ := hsome k a hfind
            refine ⟨?_, ?_, ?_, ?_, ?_⟩
            · rw [principalOf_append_no k p t (hother k hkk)]; exact h1
            · rw [interestOf_append_no fuel today k p t (hother k hkk)]
              exact h2
            · rw [paidOf_append_no k p t (hother k hkk)]; exact h3
            · rw [displayNameOf_append_no k p t (hother k hkk)]; exact h4
            · rw [keyedFor_append_no k p t (hother k hkk)]; exact h5
        · intro k hfind
          by_cases hkk : k = k0
          · subst hkk
            rw [findAcc_updAcc_self, hfa] at hfind
            simp at hfind
          · rw [findAcc_updAcc_ne k0 k _ _ hkk] at hfind
            rw [keyedFor_append_no k p t (hother k hkk)]
            exact hnone k hfind
        · rw [updAcc_keys]
          exact hnd

theorem mem_of_getLast_opt {α : Type} {l : List α} {a : α}
    (h : l.getLast? = some a) : a ∈ l := by
  induction l with
  | nil => simp at h
  | cons x xs ih =>
    cases hxs : xs with
    | nil =>
      subst hxs
      simp at h
      subst h
      simp
    | cons y ys =>
      subst hxs
      rw [List.getLast?_cons_cons] at h
      exact List.mem_cons_of_mem x (ih h)

theorem getLast_opt_of_ne_nil {α : Type} {l : List α} (h : l ≠ []) :
    ∃ a, l.getLast? = some a := by
  cases hl : l.getLast? with
  | some a => exact ⟨a, rfl⟩
  | none =>
    rw [List.getLast?_eq_none_iff] at hl
    exact absurd hl h

theorem buildAccounts_inv (fuel : Nat) (today : Date) :
    ∀ (txs p : List Tx) (s : List (List Char × Account)),
      AccInv fuel today p s →
      AccInv fuel today (p ++ txs) (List.foldl (accStep fuel today) s txs) := by
  intro txs
  induction txs with
  | nil =>
    intro p s h
    simpa using h
  | cons t ts ih =>
    intro p s h
    have h3 := ih (p ++ [t]) (accStep fuel today s t)
      (accStep_inv fuel today p s t h)
    simpa [List.append_assoc] using h3

theorem buildAccounts_sound (fuel : Nat) (today : Date) (txs : List Tx) :
    AccInv fuel today txs (buildAccounts fuel today txs) := by
  have h0 : AccInv fuel today [] [] := by
    refine ⟨?_, ?_, ?_⟩
    · intro k a hf
      simp [findAcc] at hf
    · intro k hf
      rfl
    · simp
  simpa [buildAccounts] using buildAccounts_inv fuel today txs [] [] h0

theorem keyOf_of_mem_keyedFor {k : List Char} {txs : List Tx} {t : Tx}
    (h : t ∈ keyedFor k txs) : keyOf t = some k := by
  have := (List.mem_filter.mp h).2
  exact of_decide_eq_true this

theorem keyOf_of_mem_incomesFor {k : List Char} {txs : List Tx} {t : Tx}
    (h : t ∈ incomesFor k txs) : keyOf t = some k :=
  keyOf_of_mem_keyedFor (List.mem_filter.mp h).1

theorem lower_displayNameOf (k : List Char) (txs : List Tx)
    (hne : keyedFor k txs ≠ []) : lower (displayNameOf k txs) = k := by
  unfold displayNameOf
  cases hl : (incomesFor k txs).getLast? with
  | some t2 =>
    exact keyOf_lower_rawName t2 k (keyOf_of_mem_incomesFor
      (mem_of_getLast_opt hl))
  | none =>
    cases hh : (keyedFor k txs).head? with
    | none =>
      rw [List.head?_eq_none_iff] at hh
      exact absurd hh hne
    | some t0 =>
      have hmem : t0 ∈ keyedFor k txs := by
        rcases List.exists_cons_of_ne_nil hne with ⟨x, rest, hre⟩
        rw [hre] at hh ⊢
        injection hh with hh2
        subst hh2
        exact List.mem_cons_self _ _
      exact keyOf_lower_rawName t0 k (keyOf_of_mem_keyedFor hmem)

/-- C8: every account the investor dashboard reports groups transactions by
the case-insensitive key of its displayed name (income entries keyed by their
investor name, expense entries by their category): its principal is the sum
of the matching income amounts, its accrued interest the sum of the amounts
of the projected interest entries of those incomes up to today, its payments
the sum of the matching expense amounts; its displayed name carries the
casing of the most recent matching income entry when one exists; and its
outstanding balance is principal plus interest minus payments. -/
theorem investor_ledger_sums (fuel : Nat) (today : Date) (txs : List Tx)
    (a : Account) (ha : a ∈ investorAccounts fuel today txs) :
    a.totalPrincipal = principalOf (lower a.name) txs ∧
    a.totalInterestAccrued = interestOf fuel today (lower a.name) txs ∧
    a.totalPaid = paidOf (lower a.name) txs ∧
    a.name = displayNameOf (lower a.name) txs ∧
    (incomesFor (lower a.name) txs ≠ [] →
       ∃ t ∈ incomesFor (lower a.name) txs, a.name = rawName t) ∧
    netBalance a = principalOf (lower a.name) txs +
      interestOf fuel today (lower a.name) txs -
      paidOf (lower a.name) txs := by
  obtain ⟨hsome, hnone, hnd⟩ := buildAccounts_sound fuel today txs
  simp only [investorAccounts, List.mem_filter, List.mem_map] at ha
  obtain ⟨⟨pr, hpr, hpa⟩, hfilter⟩ := ha
  obtain ⟨k, acc⟩ := pr
  simp only at hpa
  subst hpa
  have hfind := findAcc_of_mem k acc (buildAccounts fuel today txs) hnd hpr
  obtain ⟨h1, h2, h3, h4, h5⟩ := hsome k acc hfind
  have hklow : lower acc.name = k := by
    rw [h4]
    exact lower_displayNameOf k txs h5
  rw [hklow]
  refine ⟨h1, h2, h3, h4, ?_, ?_⟩
  · intro hinc
    obtain ⟨t2, hg⟩ := getLast_opt_of_ne_nil hinc
    refine ⟨t2, mem_of_getLast_opt hg, ?_⟩
    rw [h4]
    unfold displayNameOf
    rw [hg]
  · rw [netBalance, h1, h2, h3]

def dtlC8 : InvestorDetails :=
  { investorName := "John"
    roi := 12
    returnPeriod := ReturnPeriod.Monthly
    durationMonths := 12
    maturityDate := ⟨2025, 1, 10⟩
    purpose := none
    periodicInterestAmount := some 10 }

def txC8 : Tx :=
  { id := "t8"
    userId := "u1"
    amount := 1000
    type := TxType.INCOME
    category := "Investor Funds"
    paymentMode := none
    date := ⟨2024, 1, 10⟩
    note := none
    timestamp := 0
    investorDetails := some dtlC8 }

def accC8 : Account := ⟨"John", 1000, 0, 0⟩

/-- C8 witness: the ledger-sum characterisation applied to a concrete
one-transaction ledger. -/
theorem investor_ledger_sums_witness :
    accC8 ∈ investorAccounts 5 ⟨2024, 1, 10⟩ [txC8] ∧
    netBalance accC8 = principalOf (lower accC8.name) [txC8] +
      interestOf 5 ⟨2024, 1, 10⟩ (lower accC8.name) [txC8] -
      paidOf (lower accC8.name) [txC8] := by
  have hgen : generateInterestEntries 5 txC8 ⟨2024, 1, 10⟩ = [] := by decide
  have hkey : keyOf txC8 = some (lower "John") := by decide
  have hacc : investorAccounts 5 ⟨2024, 1, 10⟩ [txC8] = [accC8] := by
    simp only [investorAccounts, buildAccounts, List.foldl, accStep, hkey,
      findAcc, hgen, List.map_nil, List.sum_nil, updAcc, List.nil_append,
      show txC8.type = TxType.INCOME from rfl,
      show txC8.investorDetails = some dtlC8 from rfl,
      show txC8.amount = (1000 : ℚ) from rfl,
      show rawName txC8 = "John" from rfl, accC8]
    norm_num
  have hmem : accC8 ∈ investorAccounts 5 ⟨2024, 1, 10⟩ [txC8] := by
    rw [hacc]
    exact List.mem_singleton.mpr rfl
  exact ⟨hmem,
    (investor_ledger_sums 5 ⟨2024, 1, 10⟩ [txC8] accC8 hmem).2.2.2.2.2⟩

/-! ## Storage claims C9, C10 -/

/-- C9: reading an absent storage key never fails: `getUsers` returns the
empty list, `getTransactions` returns the empty list for any user id, and
`getCategories` returns the default category groups and persists them. -/
theorem storage_missing_defaults :
    (∀ s : Store, s.users = none → getUsers s = []) ∧
    (∀ (s : Store) (uid : String), s.transactions = none →
       getTransactions uid s = []) ∧
    (∀ s : Store, s.categories = none →
       getCategories s =
         (DEFAULT_CATEGORIES,
          { s with categories := some DEFAULT_CATEGORIES })) := by
  refine ⟨?_, ?_, ?_⟩
  · intro s h
    simp [getUsers, h]
  · intro s uid h
    simp [getTransactions, h, sortByTsDesc]
  · intro s h
    simp [getCategories, h]

/-- C9 witness: the defaults at the completely empty store. -/
theorem storage_missing_defaults_witness :
    getUsers ⟨none, none, none⟩ = [] ∧
    getTransactions "u1" ⟨none, none, none⟩ = [] ∧
    getCategories ⟨none, none, none⟩ =
      (DEFAULT_CATEGORIES, ⟨none, none, some DEFAULT_CATEGORIES⟩) :=
  ⟨storage_missing_defaults.1 ⟨none, none, none⟩ rfl,
   storage_missing_defaults.2.1 ⟨none, none, none⟩ "u1" rfl,
   storage_missing_defaults.2.2 ⟨none, none, none⟩ rfl⟩

/-- Structural condition under which the `getCategories` migrations leave a
stored category list untouched: the "Investments" group exists and the first
"Personal" group (when present) holds none of the migrated labels. -/
def MigStable (c : List GroupedCategory) : Prop :=
  (findGroup "Investments" c).isSome = true ∧
  (match findGroup "Personal" c with
   | none => True
   | some p =>
     "Investor Funds" ∉ p.items ∧ "SIP (Regular)" ∉ p.items ∧
       "SIP (Gold)" ∉ p.items)

instance (c : List GroupedCategory) : Decidable (MigStable c) := by
  unfold MigStable
  cases hp : findGroup "Personal" c <;> dsimp only <;> infer_instance

theorem moveItemStep_stable (item : String) (c : List GroupedCategory)
    (b : Bool)
    (h : ∀ p, findGroup "Personal" c = some p → item ∉ p.items) :
    moveItemStep item (c, b) = (c, b) := by
  unfold moveItemStep
  cases hp : findGroup "Personal" c with
  | none => simp [hp]
  | some p => simp [hp, h p hp]

theorem migrate1_stable (c : List GroupedCategory)
    (h : ∀ p, findGroup "Personal" c = some p →
      "Investor Funds" ∉ p.items) :
    migrate1 c = (c, false) := by
  unfold migrate1
  cases hp : findGroup "Personal" c with
  | none =>
    cases hv : findGroup "Investor Payments" c <;> simp [hp, hv]
  | some p =>
    cases hv : findGroup "Investor Payments" c with
    | none => simp [hp, hv]
    | some v => simp [hp, hv, h p hp]

theorem migrate2_stable (c : List GroupedCategory) (b : Bool)
    (h : (findGroup "Investments" c).isSome = true) :
    migrate2 (c, b) = (c, b) := by
  unfold migrate2
  cases hi : findGroup "Investments" c with
  | none =>
    rw [hi] at h
    simp at h
  | some g => simp [hi]

theorem migStable_personal_facts (c : List GroupedCategory)
    (h : MigStable c) :
    ∀ p, findGroup "Personal" c = some p →
      "Investor Funds" ∉ p.items ∧ "SIP (Regular)" ∉ p.items ∧
        "SIP (Gold)" ∉ p.items := by
  obtain ⟨-, hPers⟩ := h
  intro p hp
  simp only [hp] at hPers
  exact hPers

theorem migrate_stable (c : List GroupedCategory) (h : MigStable c) :
    migrate c = (c, false) := by
  have hfacts := migStable_personal_facts c h
  unfold migrate
  rw [migrate1_stable c (fun p hp => (hfacts p hp).1),
    migrate2_stable c false h.1,
    moveItemStep_stable "SIP (Regular)" c false
      (fun p hp => (hfacts p hp).2.1),
    moveItemStep_stable "SIP (Gold)" c false
      (fun p hp => (hfacts p hp).2.2)]

theorem getCategories_stable (s : Store) (c : List GroupedCategory)
    (hc : s.categories = some c) (hst : MigStable c) :
    getCategories s = (c, s) := by
  unfold getCategories
  simp only [hc, migrate_stable c hst, Bool.false_eq_true, if_false]

theorem ensure_exists_eq (s : Store) (c : List GroupedCategory)
    (g : GroupedCategory) (nm : String) (hc : s.categories = some c)
    (hst : MigStable c) (hg : findGroup "Investor Payments" c = some g)
    (hex : (g.items.any (fun item => decide (lower item = lower nm)))
      = true) :
    ensureInvestorCategory s nm = s := by
  unfold ensureInvestorCategory
  rw [getCategories_stable s c hc hst]
  simp only [hg, hex, if_true]

theorem ensure_not_exists_eq (s : Store) (c : List GroupedCategory)
    (g : GroupedCategory) (nm : String) (hc : s.categories = some c)
    (hst : MigStable c) (hg : findGroup "Investor Payments" c = some g)
    (hex : (g.items.any (fun item => decide (lower item = lower nm)))
      = false) :
    ensureInvestorCategory s nm =
      { s with categories := some (updateGroup "Investor Payments"
          (fun its => its ++ [nm]) c) } := by
  unfold ensureInvestorCategory
  rw [getCategories_stable s c hc hst]
  simp only [hg, hex, Bool.false_eq_true, if_false, saveCategories]

theorem findGroup_updateGroup_ne (n n2 : String) (hne : n ≠ n2)
    (f : List String → List String) (c : List GroupedCategory) :
    findGroup n (updateGroup n2 f c) = findGroup n c := by
  induction c with
  | nil => rfl
  | cons g rest ih =>
    by_cases h : g.group = n2
    · have h2 : ¬ (g.group = n) := by
        rw [h]
        exact fun hh => hne hh.symm
      simp only [updateGroup, if_pos h, findGroup]
      rw [if_neg (by simpa using h2), if_neg h2]
    · simp only [updateGroup, if_neg h, findGroup]
      by_cases h3 : g.group = n
      · simp only [if_pos h3]
      · simp only [if_neg h3]
        exact ih

theorem findGroup_updateGroup_self (n : String)
    (f : List String → List String) (c : List GroupedCategory) :
    findGroup n (updateGroup n f c) =
      (findGroup n c).map (fun g => { g with items := f g.items }) := by
  induction c with
  | nil => rfl
  | cons g rest ih =>
    by_cases h : g.group = n
    · simp only [updateGroup, if_pos h, findGroup]
      rfl
    · simp only [updateGroup, if_neg h, findGroup]
      exact ih

theorem migStable_updateIP (c : List GroupedCategory)
    (f : List String → List String) (h : MigStable c) :
    MigStable (updateGroup "Investor Payments" f c) := by
  obtain ⟨hInv, hPers⟩ := h
  constructor
  · rw [findGroup_updateGroup_ne "Investments" "Investor Payments"
      (by decide) f c]
    exact hInv
  · rw [findGroup_updateGroup_ne "Personal" "Investor Payments"
      (by decide) f c]
    exact hPers

/-- No two items of the list are equal up to case. -/
def NoDupLower (l : List String) : Prop :=
  l.Pairwise (fun a b => lower a ≠ lower b)

def storeC10 : Store :=
  ⟨none, none,
   some [⟨"Investor Payments", ["Investor Funds", "john"]⟩,
         ⟨"Personal", []⟩]⟩

/-- C10 counterexample: the stored "Investor Payments" group already holds
an item case-insensitively equal to "John", yet `ensureInvestorCategory`
changes the stored categories anyway, because the `getCategories` call
inside it runs the category migrations (here: creating the "Investments"
group) and persists their result. -/
theorem ensure_investor_migration_cex :
    findGroup "Investor Payments" (storeC10.categories.getD []) =
      some ⟨"Investor Payments", ["Investor Funds", "john"]⟩ ∧
    (["Investor Funds", "john"].any
      (fun item => decide (lower item = lower "John"))) = true ∧
    ensureInvestorCategory storeC10 "John" ≠ storeC10 := by
  decide

/-- C10 (amended): on a stored category state that the `getCategories`
migrations leave unchanged and that has an "Investor Payments" group,
`ensureInvestorCategory` leaves the store unchanged when a
case-insensitively equal item already exists, it is idempotent (calling it
twice equals calling it once), and it never introduces a pair of
case-insensitively equal items into the group. On other stored states the
migrations themselves may rewrite storage even when the item exists. -/
theorem ensure_investor_category_props (s : Store)
    (c : List GroupedCategory) (g : GroupedCategory) (nm : String)
    (hc : s.categories = some c) (hst : MigStable c)
    (hg : findGroup "Investor Payments" c = some g) :
    ((g.items.any (fun item => decide (lower item = lower nm))) = true →
        ensureInvestorCategory s nm = s) ∧
    ensureInvestorCategory (ensureInvestorCategory s nm) nm =
      ensureInvestorCategory s nm ∧
    (NoDupLower g.items → ∀ g2,
        findGroup "Investor Payments"
            ((ensureInvestorCategory s nm).categories.getD []) = some g2 →
        NoDupLower g2.items) := by
  refine ⟨fun hex => ensure_exists_eq s c g nm hc hst hg hex, ?_, ?_⟩
  · by_cases hex :
        (g.items.any (fun item => decide (lower item = lower nm))) = true
    · have he := ensure_exists_eq s c g nm hc hst hg hex
      rw [he]
      exact he
    · have hexf :
          (g.items.any (fun item => decide (lower item = lower nm)))
            = false := Bool.eq_false_iff.mpr hex
      have hne := ensure_not_exists_eq s c g nm hc hst hg hexf
      have hst2 : MigStable
          (updateGroup "Investor Payments" (fun its => its ++ [nm]) c) :=
        migStable_updateIP c _ hst
      have hg2 : findGroup "Investor Payments"
          (updateGroup "Investor Payments" (fun its => its ++ [nm]) c) =
          some { g with items := g.items ++ [nm] } := by
        rw [findGroup_updateGroup_self, hg]
        rfl
      have hex2 : (({ g with items := g.items ++ [nm] } :
          GroupedCategory).items.any
          (fun item => decide (lower item = lower nm))) = true := by
        simp [List.any_append]
      have he2 := ensure_exists_eq
        (saveCategories s
          (updateGroup "Investor Payments" (fun its => its ++ [nm]) c))
        (updateGroup "Investor Payments" (fun its => its ++ [nm]) c)
        { g with items := g.items ++ [nm] } nm rfl hst2 hg2 hex2
      rw [hne]
      exact he2
  · intro hnd g2 hg2
    by_cases hex :
        (g.items.any (fun item => decide (lower item = lower nm))) = true
    · rw [ensure_exists_eq s c g nm hc hst hg hex, hc] at hg2
      simp only [Option.getD_some] at hg2
      rw [hg] at hg2
      injection hg2 with hg2e
      rw [← hg2e]
      exact hnd
    · have hexf :
          (g.items.any (fun item => decide (lower item = lower nm)))
            = false := Bool.eq_false_iff.mpr hex
      rw [ensure_not_exists_eq s c g nm hc hst hg hexf] at hg2
      simp only [Option.getD_some] at hg2
      rw [findGroup_updateGroup_self, hg] at hg2
      simp only [Option.map_some'] at hg2
      injection hg2 with hg2e
      rw [← hg2e]
      unfold NoDupLower at hnd ⊢
      simp only [List.pairwise_append]
      refine ⟨hnd, by simp, ?_⟩
      intro x hx y hy
      simp only [List.mem_singleton] at hy
      intro hcontra
      rw [hy] at hcontra
      have hany : (g.items.any
          (fun item => decide (lower item = lower nm))) = true := by
        apply List.any_eq_true.mpr
        exact ⟨x, hx, by simp [hcontra]⟩
      rw [hany] at hexf
      exact Bool.noConfusion hexf

/-- C10 witness: the amended properties at the default categories with an
already-present item. -/
theorem ensure_investor_category_props_witness :
    (⟨none, none, some DEFAULT_CATEGORIES⟩ : Store).categories =
      some DEFAULT_CATEGORIES ∧
    MigStable DEFAULT_CATEGORIES ∧
    findGroup "Investor Payments" DEFAULT_CATEGORIES =
      some ⟨"Investor Payments",
        ["Investor Funds", "Interest Payment", "Principal Return"]⟩ ∧
    ensureInvestorCategory ⟨none, none, some DEFAULT_CATEGORIES⟩
        "Interest Payment" =
      ⟨none, none, some DEFAULT_CATEGORIES⟩ := by
  refine ⟨rfl, by decide, by decide, ?_⟩
  exact (ensure_investor_category_props
    ⟨none, none, some DEFAULT_CATEGORIES⟩ DEFAULT_CATEGORIES
    ⟨"Investor Payments",
     ["Investor Funds", "Interest Payment", "Principal Return"]⟩
    "Interest Payment" rfl (by decide) (by decide)).1 (by decide)
